import Mathlib

/-!
Verification of the sfc8-cycles cycle-scanning tool (src/sfc8-cycles.c).

The C program is shallowly embedded: 8-bit fields become `Nat` with explicit
`% 256` wherever the C code truncates on assignment to `uint8_t`, the 64-bit
word array backing a bit vector becomes a function `Nat → Nat` from word index
to word value, and the global cache of the top-7 cycles becomes an explicit
structure passed through the functions that the C code mutates it from.
-/

namespace Sfc8

/-- Number of possible 32-bit states, `(size_t)UINT32_MAX + 1` in the source. -/
def POSSIBLE_STATES : Nat := 4294967296

/-- Number of cached cycle records, `#define ARRAYS_TO_STORE 7` in the source. -/
def ARRAYS_TO_STORE : Nat := 7

/-- The sfc8 generator state: four 8-bit fields, `sfc8_t` in the source.
Fields are `Nat`; well-formed states keep every field below 256. -/
structure sfc8_t where
  a : Nat
  b : Nat
  c : Nat
  d : Nat
deriving DecidableEq, Repr

/-- A state is well formed when each 8-bit field is in range. -/
def wf (s : sfc8_t) : Prop := s.a < 256 ∧ s.b < 256 ∧ s.c < 256 ∧ s.d < 256

instance (s : sfc8_t) : Decidable (wf s) := by unfold wf; infer_instance

/-- The generator transition, `sfc8_advance` in the source:
`temp = a + b + d++` (reads old `d`, then increments it),
`a = b ^ (b >> 2)`, `b = c + (c << 1)`, `c = temp + ((c << 3)|(c >> 5))`.
Every assignment to a `uint8_t` field truncates mod 256; intermediate C
arithmetic is `int`-promoted, so the rotate's `c << 3` is NOT truncated
before the bitwise or. -/
def sfc8_advance (s : sfc8_t) : sfc8_t :=
  { a := (s.b ^^^ (s.b >>> 2)) % 256
  , b := (s.c + (s.c <<< 1)) % 256
  , c := ((s.a + s.b + s.d) % 256 + ((s.c <<< 3) ||| (s.c >>> 5))) % 256
  , d := (s.d + 1) % 256 }

/-- An 8-bit left rotation by 3, the spec's `rotate_left(c, 3)`. -/
def rotl8_3 (c : Nat) : Nat := ((c <<< 3) % 256) ||| (c >>> 5)

/-- The transition exactly as the specification words it:
`t = a + b + d` mod 256 using the old `d`, `d' = d + 1` mod 256,
`a' = b XOR (b >> 2)`, `b' = c + (c << 1)` mod 256,
`c' = t + rotate_left(c, 3)` mod 256, each right-hand side reading the
old field values. -/
def sfc8_advance_spec (s : sfc8_t) : sfc8_t :=
  { a := s.b ^^^ (s.b >>> 2)
  , b := (s.c + (s.c <<< 1)) % 256
  , c := ((s.a + s.b + s.d) % 256 + rotl8_3 s.c) % 256
  , d := (s.d + 1) % 256 }

/-- State encoding, `encode_state` in the source:
`result = a; result |= b << 8; result |= c << 16; result |= d << 24`. -/
def encode_state (s : sfc8_t) : Nat :=
  ((s.a ||| (s.b <<< 8)) ||| (s.c <<< 16)) ||| (s.d <<< 24)

/-- The mathematical inverse of `encode_state` (the codec's `decode`, which the
spec requires to exist even though the C engine never calls it). -/
def decode_state (key : Nat) : sfc8_t :=
  { a := key % 256
  , b := (key >>> 8) % 256
  , c := (key >>> 16) % 256
  , d := (key >>> 24) % 256 }

/-- Word index of a key in the bit array, `WORD_INDEX` in the source. -/
def WORD_INDEX (value : Nat) : Nat := value >>> 6

/-- Bit index of a key inside its word, `BIT_INDEX` in the source. -/
def BIT_INDEX (value : Nat) : Nat := value &&& 0x3F

/-- `test_bit` from the source: whether the bit for `position` is set in the
word array (modelled as a function from word index to 64-bit word value). -/
def test_bit (array : Nat → Nat) (position : Nat) : Bool :=
  (array (WORD_INDEX position) &&& (1 <<< BIT_INDEX position)) != 0

/-- `test_and_set_bit` from the source: returns the previous value of the bit
together with the array after setting it. -/
def test_and_set_bit (array : Nat → Nat) (position : Nat) : Bool × (Nat → Nat) :=
  let bit_word := 1 <<< BIT_INDEX position
  let word_index := WORD_INDEX position
  let array_word := array word_index
  ((array_word &&& bit_word) != 0,
   Function.update array word_index (array_word ||| bit_word))

/-- The all-zero word array: the contents of the live bit vector right after
the `memset(cycle_bit_array, 0, BIT_ARRAY_SIZE)` in `test_seed_for_cycle`. -/
def zeroed_bit_array : Nat → Nat := fun _ => 0

/-- The cache globals of the source: `tested_cycle_bit_arrays` (7 pointers,
NULL modelled as `none`), `saved_cycle_lengths` (7 lengths, 0 while a slot is
empty) and `saved_array_count`.  The fingerprint type is a parameter `α`
(instantiated with `Nat → Nat` in the scanner, and with `Nat` as record
identifiers when reasoning about which records survive). -/
structure CycleStore (α : Type) where
  tested_cycle_bit_arrays : Nat → Option α
  saved_cycle_lengths : Nat → Nat
  saved_array_count : Nat

/-- The state of the cache at program start: all slots NULL, all lengths 0. -/
def emptyStore (α : Type) : CycleStore α :=
  { tested_cycle_bit_arrays := fun _ => none
  , saved_cycle_lengths := fun _ => 0
  , saved_array_count := 0 }

/-- A fingerprint `x` is retained when some slot of the 7-entry table holds it. -/
def retained {α : Type} (c : CycleStore α) (x : α) : Prop :=
  ∃ i, i < ARRAYS_TO_STORE ∧ c.tested_cycle_bit_arrays i = some x

instance {α : Type} [DecidableEq α] (c : CycleStore α) (x : α) :
    Decidable (retained c x) := by
  unfold retained ARRAYS_TO_STORE
  infer_instance

/-- The two assignment lines of an insertion in `update_tested_cycles`:
`tested_cycle_bit_arrays[position] = array_to_consider;
 saved_cycle_lengths[position] = current_cycle_length;`. -/
def insertAt {α : Type} (c : CycleStore α) (pos cl : Nat) (ca : α) : CycleStore α :=
  { c with
    tested_cycle_bit_arrays :=
      Function.update c.tested_cycle_bit_arrays pos (some ca)
  , saved_cycle_lengths := Function.update c.saved_cycle_lengths pos cl }

/-- The `for (position = 0; position < ARRAYS_TO_STORE; position++)` cascade of
`update_tested_cycles`, with `fuel` the number of loop iterations left
(`ARRAYS_TO_STORE - position` on entry).  `cl`/`ca` are the local variables
`current_cycle_length`/`array_to_consider`, `did` is `did_updates`.  When the
displaced entry was the last slot's the old array is freed (dropped here);
when the slot was empty the count grows and the loop breaks. -/
def cascade {α : Type} : CycleStore α → Nat → α → Bool → Nat → Nat → CycleStore α × Bool
  | c, _cl, _ca, did, _pos, 0 => (c, did)
  | c, cl, ca, did, pos, fuel + 1 =>
    if c.saved_cycle_lengths pos < cl then
      match c.tested_cycle_bit_arrays pos with
      | some prev =>
        if pos = ARRAYS_TO_STORE - 1 then (insertAt c pos cl ca, true)
        else cascade (insertAt c pos cl ca) (c.saved_cycle_lengths pos) prev
          true (pos + 1) fuel
      | none =>
        ({ insertAt c pos cl ca with
             saved_array_count := c.saved_array_count + 1 }, true)
    else cascade c cl ca did (pos + 1) fuel

/-- `update_tested_cycles` from the source (the cache's `consider`):
a candidate with length `cycle_length` and fingerprint `arr` is offered to the
cache; the returned flag is `did_updates`, telling the caller to allocate a
fresh scratch vector. -/
def update_tested_cycles {α : Type} (c : CycleStore α) (cycle_length : Nat)
    (arr : α) : CycleStore α × Bool :=
  if c.saved_array_count = 0 then
    ({ insertAt c 0 cycle_length arr with saved_array_count := 1 }, true)
  else cascade c cycle_length arr false 0 ARRAYS_TO_STORE

/-- Testing a key against an optional fingerprint slot (a NULL slot holds
nothing; the source never dereferences a NULL slot because it only scans
slots below `saved_array_count`). -/
def test_bit_opt (slot : Option (Nat → Nat)) (key : Nat) : Bool :=
  match slot with
  | some array => test_bit array key
  | none => false

/-- The scan loop of `check_existing_arrays`: try slots `idx, idx+1, ...`
while `fuel` iterations remain, returning the index of the first fingerprint
containing `key`. -/
def findHit (c : CycleStore (Nat → Nat)) (key : Nat) : Nat → Nat → Option Nat
  | _idx, 0 => none
  | idx, fuel + 1 =>
    if test_bit_opt (c.tested_cycle_bit_arrays idx) key then some idx
    else findHit c key (idx + 1) fuel

/-- `check_existing_arrays` from the source: linear scan of the retained
fingerprints in rank order; `some idx` plays the role of the C function
returning true with `*ret_array_idx = idx`. -/
def check_existing_arrays (c : CycleStore (Nat → Nat)) (key : Nat) : Option Nat :=
  findHit c key 0 c.saved_array_count

/-- The trace loop of `test_seed_for_cycle`:
`for (length_counter = 0; length_counter < POSSIBLE_STATES; length_counter++)
   { collision = test_and_set_bit(array, encode_state(&state));
     if (collision) break; sfc8_advance(&state); }`.
Returns the final `length_counter` together with the marked array (the
fingerprint handed to the cache). -/
def traceAux : (Nat → Nat) → sfc8_t → Nat → Nat → Nat × (Nat → Nat)
  | array, _state, counter, 0 => (counter, array)
  | array, state, counter, fuel + 1 =>
    let r := test_and_set_bit array (encode_state state)
    if r.1 then (counter, r.2)
    else traceAux r.2 (sfc8_advance state) (counter + 1) fuel

/-- The trajectory length the trace loop reports for initial state `s`,
starting (as the source does after its `memset`) from an all-zero bit vector. -/
def trace_result (s : sfc8_t) : Nat :=
  (traceAux zeroed_bit_array s 0 POSSIBLE_STATES).1

/-- Iterated generator transition: the state after `n` steps. -/
def iterAdv : Nat → sfc8_t → sfc8_t
  | 0, s => s
  | n + 1, s => iterAdv n (sfc8_advance s)

/-- The initial state built from a seed in `test_seed_for_cycle`:
`a = (uint8_t)seed, b = (uint8_t)(seed >> 8), c = (uint8_t)(seed >> 16), d = 1`. -/
def seed_to_state (seed : Nat) : sfc8_t :=
  { a := seed % 256
  , b := (seed >>> 8) % 256
  , c := (seed >>> 16) % 256
  , d := 1 }

/-- The mutable globals that `test_seed_for_cycle` works on: the cycle cache,
the live scratch vector `cycle_bit_array` (its word contents), and a ghost
counter of how many replacement allocations have happened. -/
structure ScanState where
  cache : CycleStore (Nat → Nat)
  cycle_bit_array : Nat → Nat
  allocs : Nat

/-- The tail of `test_seed_for_cycle` after a trace: pass the traced length and
fingerprint to `update_tested_cycles`; if it reports updates the scratch
vector was consumed into the cache, so a fresh (malloc'ed, contents `fresh`,
NOT zeroed) vector becomes the new `cycle_bit_array`; otherwise the same
vector is kept. -/
def consider_phase (g : ScanState) (fresh : Nat → Nat) (len : Nat)
    (marks : Nat → Nat) : ScanState :=
  let r := update_tested_cycles g.cache len marks
  if r.2 then { cache := r.1, cycle_bit_array := fresh, allocs := g.allocs + 1 }
  else { cache := r.1, cycle_bit_array := marks, allocs := g.allocs }

/-- `test_seed_for_cycle` from the source.  Returns the updated globals, the
reported length, and `was_on_known_cycle` (the caller's `is_new` is its
negation).  On a cache hit nothing is modified and the cached length is
returned; on a miss the scratch vector is `memset` to zero, the trace loop
runs, and the result is offered to the cache. -/
def test_seed_for_cycle (g : ScanState) (fresh : Nat → Nat) (seed : Nat) :
    ScanState × Nat × Bool :=
  let state := seed_to_state seed
  match check_existing_arrays g.cache (encode_state state) with
  | some idx => (g, g.cache.saved_cycle_lengths idx, true)
  | none =>
    let t := traceAux zeroed_bit_array state 0 POSSIBLE_STATES
    (consider_phase g fresh t.1 t.2, t.1, false)

/-- The driving loop of `main`, seed by seed: `scan_state oracle s0 n` is the
global state after seeds `0, 1, ..., n-1` have been processed, where `s0` is
the (arbitrary, un-zeroed) content of the initially malloc'ed scratch vector
and `oracle n` the content a replacement allocation during seed `n` would
carry. -/
def scan_state (oracle : Nat → Nat → Nat) (s0 : Nat → Nat) : Nat → ScanState
  | 0 => { cache := emptyStore (Nat → Nat), cycle_bit_array := s0, allocs := 0 }
  | n + 1 => (test_seed_for_cycle (scan_state oracle s0 n) (oracle n) n).1

/-- The largest length currently stored in the cache's 7-entry length table. -/
def cacheMax {α : Type} (c : CycleStore α) : Nat :=
  ((List.range ARRAYS_TO_STORE).map c.saved_cycle_lengths).foldr max 0

/-- A sequence of consider calls applied to a cache, oldest call first. -/
def applyConsiders {α : Type} (ops : List (Nat × α)) (c : CycleStore α) :
    CycleStore α :=
  ops.foldl (fun c op => (update_tested_cycles c op.1 op.2).1) c

/-- A concrete full cache (record identifiers 0..6, lengths 5,3,3,3,3,3,3) on
which a consider call with length 4 drops the middle record 1 instead of
evicting the bottom record 6; reachable, e.g. by considering seven length-3
fingerprints and then a length-5 one. -/
def dropStore : CycleStore Nat :=
  { tested_cycle_bit_arrays := fun i => if i < 7 then some i else none
  , saved_cycle_lengths := fun i => if i = 0 then 5 else if i < 7 then 3 else 0
  , saved_array_count := 7 }

/-- A concrete full cache with pairwise distinct lengths 70,60,...,10. -/
def distinctStore : CycleStore Nat :=
  { tested_cycle_bit_arrays := fun i => if i < 7 then some i else none
  , saved_cycle_lengths := fun i => if i < 7 then 70 - 10 * i else 0
  , saved_array_count := 7 }

/-- A concrete one-record cache whose fingerprint contains the key of
`seed_to_state 0` (key 16777216, word 262144, bit 0), with stored length 42. -/
def hitStore : CycleStore (Nat → Nat) :=
  { tested_cycle_bit_arrays :=
      fun i => if i = 0 then some (fun w => if w = 262144 then 1 else 0)
        else none
  , saved_cycle_lengths := fun i => if i = 0 then 42 else 0
  , saved_array_count := 1 }

/- ### Cache invariants -/

/-- Slot `i` is occupied exactly when `i < saved_array_count`. -/
def slotsMatchCount {α : Type} (c : CycleStore α) : Prop :=
  ∀ i, i < ARRAYS_TO_STORE →
    ((c.tested_cycle_bit_arrays i).isSome ↔ i < c.saved_array_count)

/-- Stored lengths are non-increasing in rank order. -/
def sortedLengths {α : Type} (c : CycleStore α) : Prop :=
  ∀ i, i < ARRAYS_TO_STORE → ∀ j, j < ARRAYS_TO_STORE → i ≤ j →
    c.saved_cycle_lengths j ≤ c.saved_cycle_lengths i

/-- Empty slots still carry their initial length 0. -/
def emptySlotsZero {α : Type} (c : CycleStore α) : Prop :=
  ∀ i, i < ARRAYS_TO_STORE → c.saved_array_count ≤ i →
    c.saved_cycle_lengths i = 0

/-- Occupied slots carry a positive length (every traced length is ≥ 1). -/
def posLengths {α : Type} (c : CycleStore α) : Prop :=
  ∀ i, i < ARRAYS_TO_STORE → i < c.saved_array_count →
    1 ≤ c.saved_cycle_lengths i

/-- The basic cache invariant maintained by every `update_tested_cycles` call. -/
def CacheInv {α : Type} (c : CycleStore α) : Prop :=
  c.saved_array_count ≤ ARRAYS_TO_STORE ∧ slotsMatchCount c ∧
    sortedLengths c ∧ emptySlotsZero c

/-- The strengthened invariant which additionally records that retained
lengths are positive, as holds for every cache reachable in the program. -/
def CacheInvS {α : Type} (c : CycleStore α) : Prop := CacheInv c ∧ posLengths c

instance {α : Type} (c : CycleStore α) : Decidable (CacheInv c) := by
  unfold CacheInv slotsMatchCount sortedLengths emptySlotsZero ARRAYS_TO_STORE
  infer_instance

instance {α : Type} (c : CycleStore α) : Decidable (CacheInvS c) := by
  unfold CacheInvS posLengths ARRAYS_TO_STORE
  infer_instance

end Sfc8

namespace Sfc8

/- ### Bit-level helper lemmas -/

theorem mod_two_pow_lor (x y n : Nat) :
    (x ||| y) % 2 ^ n = (x % 2 ^ n) ||| (y % 2 ^ n) := by
  apply Nat.eq_of_testBit_eq
  intro i
  simp [Nat.testBit_mod_two_pow, Bool.and_or_distrib_left]

theorem shiftRight_lor (x y n : Nat) :
    (x ||| y) >>> n = (x >>> n) ||| (y >>> n) := by
  apply Nat.eq_of_testBit_eq
  intro i
  simp

theorem one_shiftLeft_eq_two_pow (n : Nat) : (1 : Nat) <<< n = 2 ^ n := by
  rw [Nat.shiftLeft_eq, Nat.one_mul]

theorem test_bit_eq_testBit (array : Nat → Nat) (p : Nat) :
    test_bit array p = (array (WORD_INDEX p)).testBit (BIT_INDEX p) := by
  unfold test_bit
  rw [one_shiftLeft_eq_two_pow, Nat.and_two_pow]
  rcases h : (array (WORD_INDEX p)).testBit (BIT_INDEX p) with _ | _ <;>
    simp [h, Nat.pos_iff_ne_zero.mp (Nat.two_pow_pos (BIT_INDEX p))]

theorem word_bit_inj {p q : Nat} (hw : WORD_INDEX p = WORD_INDEX q)
    (hb : BIT_INDEX p = BIT_INDEX q) : p = q := by
  simp only [WORD_INDEX, BIT_INDEX] at hw hb
  have hp : p = 64 * (p >>> 6) + (p &&& 63) := by
    rw [Nat.shiftRight_eq_div_pow]
    have : (63 : Nat) = 2 ^ 6 - 1 := by norm_num
    rw [this, Nat.and_pow_two_sub_one_eq_mod]
    have := Nat.div_add_mod p (2 ^ 6)
    omega
  have hq : q = 64 * (q >>> 6) + (q &&& 63) := by
    rw [Nat.shiftRight_eq_div_pow]
    have : (63 : Nat) = 2 ^ 6 - 1 := by norm_num
    rw [this, Nat.and_pow_two_sub_one_eq_mod]
    have := Nat.div_add_mod q (2 ^ 6)
    omega
  omega

theorem test_bit_zeroed (p : Nat) : test_bit zeroed_bit_array p = false := by
  simp [test_bit, zeroed_bit_array]

theorem test_and_set_fst (array : Nat → Nat) (p : Nat) :
    (test_and_set_bit array p).1 = test_bit array p := rfl

theorem test_and_set_snd (array : Nat → Nat) (p : Nat) :
    (test_and_set_bit array p).2 =
      Function.update array (WORD_INDEX p)
        (array (WORD_INDEX p) ||| 1 <<< BIT_INDEX p) := rfl

theorem test_bit_after_set (array : Nat → Nat) (p q : Nat) :
    test_bit (test_and_set_bit array p).2 q = (test_bit array q || decide (q = p)) := by
  rw [test_bit_eq_testBit, test_bit_eq_testBit, test_and_set_snd,
    Function.update_apply, one_shiftLeft_eq_two_pow]
  by_cases hw : WORD_INDEX q = WORD_INDEX p
  · rw [if_pos hw, Nat.testBit_or, Nat.testBit_two_pow, hw]
    by_cases hb : BIT_INDEX q = BIT_INDEX p
    · have hqp : q = p := word_bit_inj hw hb
      simp [hqp, hb]
    · have hqp : q ≠ p := fun h => hb (by rw [h])
      have hb' : BIT_INDEX p ≠ BIT_INDEX q := fun h => hb h.symm
      simp [hb', hqp]
  · rw [if_neg hw]
    have hqp : q ≠ p := fun h => hw (by rw [h])
    simp [hqp]

/- ### Codec lemmas -/

theorem shiftLeft_mod_eq_zero {y k n : Nat} (h : n ≤ k) :
    (y <<< k) % 2 ^ n = 0 := by
  rw [Nat.shiftLeft_eq]
  have : 2 ^ k = 2 ^ n * 2 ^ (k - n) := by
    rw [← Nat.pow_add]
    congr 1
    omega
  rw [this]
  rw [← Nat.mul_assoc, Nat.mul_comm y (2 ^ n), Nat.mul_assoc]
  exact Nat.mul_mod_right _ _

theorem shiftLeft_shiftRight_cancel {y k n : Nat} (h : n ≤ k) :
    (y <<< k) >>> n = y <<< (k - n) := by
  rw [Nat.shiftLeft_eq, Nat.shiftRight_eq_div_pow, Nat.shiftLeft_eq]
  have : 2 ^ k = 2 ^ (k - n) * 2 ^ n := by
    rw [← Nat.pow_add]
    congr 1
    omega
  rw [this, ← Nat.mul_assoc]
  exact Nat.mul_div_cancel _ (Nat.two_pow_pos n)

theorem shiftRight_eq_zero {x n : Nat} (h : x < 2 ^ n) : x >>> n = 0 := by
  rw [Nat.shiftRight_eq_div_pow]
  exact Nat.div_eq_of_lt h

theorem decode_encode (s : sfc8_t) (hs : wf s) :
    decode_state (encode_state s) = s := by
  obtain ⟨a, b, c, d⟩ := s
  obtain ⟨ha, hb, hc, hd⟩ := hs
  dsimp only at ha hb hc hd
  have h256 : (256 : Nat) = 2 ^ 8 := by norm_num
  have ha8 : a < 2 ^ 8 := by omega
  have hb8 : b < 2 ^ 8 := by omega
  have hc8 : c < 2 ^ 8 := by omega
  have hmod_a : (((a ||| b <<< 8) ||| c <<< 16) ||| d <<< 24) % 256 = a := by
    rw [h256, mod_two_pow_lor, mod_two_pow_lor, mod_two_pow_lor,
      shiftLeft_mod_eq_zero (by norm_num), shiftLeft_mod_eq_zero (by norm_num),
      shiftLeft_mod_eq_zero (by norm_num), Nat.mod_eq_of_lt ha8]
    simp
  have hsr_b : (((a ||| b <<< 8) ||| c <<< 16) ||| d <<< 24) >>> 8 =
      (b ||| c <<< 8) ||| d <<< 16 := by
    rw [shiftRight_lor, shiftRight_lor, shiftRight_lor,
      shiftRight_eq_zero ha8,
      shiftLeft_shiftRight_cancel (by norm_num),
      shiftLeft_shiftRight_cancel (by norm_num),
      shiftLeft_shiftRight_cancel (by norm_num)]
    norm_num
  have hmod_b : ((b ||| c <<< 8) ||| d <<< 16) % 256 = b := by
    rw [h256, mod_two_pow_lor, mod_two_pow_lor,
      shiftLeft_mod_eq_zero (by norm_num), shiftLeft_mod_eq_zero (by norm_num),
      Nat.mod_eq_of_lt hb8]
    simp
  have hsr_c : ((b ||| c <<< 8) ||| d <<< 16) >>> 8 = c ||| d <<< 8 := by
    rw [shiftRight_lor, shiftRight_lor,
      shiftRight_eq_zero hb8,
      shiftLeft_shiftRight_cancel (by norm_num),
      shiftLeft_shiftRight_cancel (by norm_num)]
    norm_num
  have hmod_c : (c ||| d <<< 8) % 256 = c := by
    rw [h256, mod_two_pow_lor, shiftLeft_mod_eq_zero (by norm_num),
      Nat.mod_eq_of_lt hc8]
    simp
  have hsr_d : (c ||| d <<< 8) >>> 8 = d := by
    rw [shiftRight_lor, shiftRight_eq_zero hc8,
      shiftLeft_shiftRight_cancel (by norm_num)]
    norm_num
  have h16 : (((a ||| b <<< 8) ||| c <<< 16) ||| d <<< 24) >>> 16 =
      ((((a ||| b <<< 8) ||| c <<< 16) ||| d <<< 24) >>> 8) >>> 8 := by
    rw [← Nat.shiftRight_add]
  have h24 : (((a ||| b <<< 8) ||| c <<< 16) ||| d <<< 24) >>> 24 =
      (((((a ||| b <<< 8) ||| c <<< 16) ||| d <<< 24) >>> 8) >>> 8) >>> 8 := by
    rw [← Nat.shiftRight_add, ← Nat.shiftRight_add]
  show decode_state (encode_state ⟨a, b, c, d⟩) = _
  unfold decode_state encode_state
  dsimp only
  rw [sfc8_t.mk.injEq]
  refine ⟨hmod_a, ?_, ?_, ?_⟩
  · rw [hsr_b, hmod_b]
  · rw [h16, hsr_b, hsr_c, hmod_c]
  · rw [h24, hsr_b, hsr_c, hsr_d]
    exact Nat.mod_eq_of_lt hd

theorem encode_inj {s t : sfc8_t} (hs : wf s) (ht : wf t)
    (h : encode_state s = encode_state t) : s = t := by
  have := decode_encode s hs
  rw [h, decode_encode t ht] at this
  exact this.symm

theorem encode_lt (s : sfc8_t) (hs : wf s) : encode_state s < POSSIBLE_STATES := by
  obtain ⟨ha, hb, hc, hd⟩ := hs
  have hP : POSSIBLE_STATES = 2 ^ 32 := by norm_num [POSSIBLE_STATES]
  rw [hP]
  unfold encode_state
  apply Nat.or_lt_two_pow
  apply Nat.or_lt_two_pow
  apply Nat.or_lt_two_pow
  · omega
  · rw [Nat.shiftLeft_eq]; omega
  · rw [Nat.shiftLeft_eq]; omega
  · rw [Nat.shiftLeft_eq]; omega

/- ### Generator lemmas -/

theorem wf_advance (s : sfc8_t) : wf (sfc8_advance s) := by
  unfold wf sfc8_advance
  refine ⟨?_, ?_, ?_, ?_⟩ <;> exact Nat.mod_lt _ (by norm_num)

theorem rotl_add_mod_eq (t c : Nat) (hc : c < 256) :
    (t + ((c <<< 3) ||| (c >>> 5))) % 256 = (t + rotl8_3 c) % 256 := by
  have h256 : (256 : Nat) = 2 ^ 8 := by norm_num
  have hsmall : c >>> 5 % 256 = c >>> 5 := by
    apply Nat.mod_eq_of_lt
    have : c >>> 5 ≤ c := by
      rw [Nat.shiftRight_eq_div_pow]
      exact Nat.div_le_self _ _
    omega
  unfold rotl8_3
  conv_lhs => rw [Nat.add_mod]
  conv_rhs => rw [Nat.add_mod]
  congr 1
  congr 1
  rw [h256, mod_two_pow_lor, mod_two_pow_lor, Nat.mod_mod, ← h256, hsmall]

theorem advance_eq_spec (s : sfc8_t) (hs : wf s) :
    sfc8_advance s = sfc8_advance_spec s := by
  obtain ⟨ha, hb, hc, hd⟩ := hs
  unfold sfc8_advance sfc8_advance_spec
  rw [sfc8_t.mk.injEq]
  refine ⟨?_, rfl, ?_, rfl⟩
  · have hb8 : s.b < 2 ^ 8 := by omega
    have hxor : s.b ^^^ s.b >>> 2 < 256 := by
      have hsr : s.b >>> 2 < 2 ^ 8 := by
        have : s.b >>> 2 ≤ s.b := by
          rw [Nat.shiftRight_eq_div_pow]
          exact Nat.div_le_self _ _
        omega
      have h := Nat.xor_lt_two_pow hb8 hsr
      omega
    exact Nat.mod_eq_of_lt hxor
  · exact rotl_add_mod_eq _ _ hc

end Sfc8

namespace Sfc8

/- ### Branch equations for the cascade loop -/

variable {α : Type}

theorem cascade_zero (c : CycleStore α) (cl : Nat) (ca : α) (did : Bool)
    (pos : Nat) : cascade c cl ca did pos 0 = (c, did) := rfl

theorem cascade_step_skip {c : CycleStore α} {cl : Nat} {pos : Nat}
    (h : ¬ c.saved_cycle_lengths pos < cl) (ca : α) (did : Bool) (fuel : Nat) :
    cascade c cl ca did pos (fuel + 1) = cascade c cl ca did (pos + 1) fuel := by
  conv_lhs => unfold cascade
  rw [if_neg h]

theorem cascade_step_last {c : CycleStore α} {cl : Nat} {pos : Nat} {prev : α}
    (h : c.saved_cycle_lengths pos < cl)
    (harr : c.tested_cycle_bit_arrays pos = some prev)
    (hp : pos = ARRAYS_TO_STORE - 1) (ca : α) (did : Bool) (fuel : Nat) :
    cascade c cl ca did pos (fuel + 1) = (insertAt c pos cl ca, true) := by
  conv_lhs => unfold cascade
  rw [if_pos h, harr]
  dsimp only
  rw [if_pos hp]

theorem cascade_step_bump {c : CycleStore α} {cl : Nat} {pos : Nat} {prev : α}
    (h : c.saved_cycle_lengths pos < cl)
    (harr : c.tested_cycle_bit_arrays pos = some prev)
    (hp : ¬ pos = ARRAYS_TO_STORE - 1) (ca : α) (did : Bool) (fuel : Nat) :
    cascade c cl ca did pos (fuel + 1) =
      cascade (insertAt c pos cl ca) (c.saved_cycle_lengths pos) prev true
        (pos + 1) fuel := by
  conv_lhs => unfold cascade
  rw [if_pos h, harr]
  dsimp only
  rw [if_neg hp]

theorem cascade_step_empty {c : CycleStore α} {cl : Nat} {pos : Nat}
    (h : c.saved_cycle_lengths pos < cl)
    (harr : c.tested_cycle_bit_arrays pos = none) (ca : α) (did : Bool)
    (fuel : Nat) :
    cascade c cl ca did pos (fuel + 1) =
      ({ insertAt c pos cl ca with
           saved_array_count := c.saved_array_count + 1 }, true) := by
  conv_lhs => unfold cascade
  rw [if_pos h, harr]

theorem insertAt_arrays_self (c : CycleStore α) (pos cl : Nat) (ca : α) :
    (insertAt c pos cl ca).tested_cycle_bit_arrays pos = some ca := by
  simp [insertAt]

theorem insertAt_arrays_ne (c : CycleStore α) (pos cl : Nat) (ca : α) {q : Nat}
    (h : q ≠ pos) :
    (insertAt c pos cl ca).tested_cycle_bit_arrays q =
      c.tested_cycle_bit_arrays q := by
  simp [insertAt, Function.update_apply, h]

theorem insertAt_lengths_self (c : CycleStore α) (pos cl : Nat) (ca : α) :
    (insertAt c pos cl ca).saved_cycle_lengths pos = cl := by
  simp [insertAt]

theorem insertAt_lengths_ne (c : CycleStore α) (pos cl : Nat) (ca : α) {q : Nat}
    (h : q ≠ pos) :
    (insertAt c pos cl ca).saved_cycle_lengths q = c.saved_cycle_lengths q := by
  simp [insertAt, Function.update_apply, h]

theorem insertAt_count (c : CycleStore α) (pos cl : Nat) (ca : α) :
    (insertAt c pos cl ca).saved_array_count = c.saved_array_count := rfl

/- ### Behavioural lemmas for the cascade loop -/

theorem cascade_did_true :
    ∀ (fuel pos : Nat) (c : CycleStore α) (cl : Nat) (ca : α),
      (cascade c cl ca true pos fuel).2 = true := by
  intro fuel
  induction fuel with
  | zero => intro pos c cl ca; rfl
  | succ fuel ih =>
    intro pos c cl ca
    by_cases h : c.saved_cycle_lengths pos < cl
    · cases harr : c.tested_cycle_bit_arrays pos with
      | some prev =>
        by_cases hp : pos = ARRAYS_TO_STORE - 1
        · rw [cascade_step_last h harr hp]
        · rw [cascade_step_bump h harr hp]
          exact ih _ _ _ _
      | none => rw [cascade_step_empty h harr]
    · rw [cascade_step_skip h]
      exact ih _ _ _ _

theorem cascade_frame_lt :
    ∀ (fuel pos : Nat) (c : CycleStore α) (cl : Nat) (ca : α) (did : Bool)
      (q : Nat), q < pos →
      (cascade c cl ca did pos fuel).1.saved_cycle_lengths q =
          c.saved_cycle_lengths q ∧
        (cascade c cl ca did pos fuel).1.tested_cycle_bit_arrays q =
          c.tested_cycle_bit_arrays q := by
  intro fuel
  induction fuel with
  | zero => intro pos c cl ca did q hq; exact ⟨rfl, rfl⟩
  | succ fuel ih =>
    intro pos c cl ca did q hq
    have hqpos : q ≠ pos := Nat.ne_of_lt hq
    by_cases h : c.saved_cycle_lengths pos < cl
    · cases harr : c.tested_cycle_bit_arrays pos with
      | some prev =>
        by_cases hp : pos = ARRAYS_TO_STORE - 1
        · rw [cascade_step_last h harr hp]
          exact ⟨insertAt_lengths_ne c pos cl ca hqpos,
            insertAt_arrays_ne c pos cl ca hqpos⟩
        · rw [cascade_step_bump h harr hp]
          have := ih (pos + 1) (insertAt c pos cl ca)
            (c.saved_cycle_lengths pos) prev true q (by omega)
          rw [this.1, this.2]
          exact ⟨insertAt_lengths_ne c pos cl ca hqpos,
            insertAt_arrays_ne c pos cl ca hqpos⟩
      | none =>
        rw [cascade_step_empty h harr]
        exact ⟨insertAt_lengths_ne c pos cl ca hqpos,
          insertAt_arrays_ne c pos cl ca hqpos⟩
    · rw [cascade_step_skip h]
      exact ih (pos + 1) c cl ca did q (by omega)

theorem cascade_noupdate :
    ∀ (fuel pos : Nat) (c : CycleStore α) (cl : Nat) (ca : α) (did : Bool),
      (∀ q, pos ≤ q → q < pos + fuel → cl ≤ c.saved_cycle_lengths q) →
      cascade c cl ca did pos fuel = (c, did) := by
  intro fuel
  induction fuel with
  | zero => intro pos c cl ca did _; rfl
  | succ fuel ih =>
    intro pos c cl ca did hle
    have h : ¬ c.saved_cycle_lengths pos < cl := by
      have := hle pos (Nat.le_refl pos) (by omega)
      omega
    rw [cascade_step_skip h]
    exact ih (pos + 1) c cl ca did (fun q h1 h2 => hle q (by omega) (by omega))

theorem cascade_false_iff :
    ∀ (fuel pos : Nat) (c : CycleStore α) (cl : Nat) (ca : α),
      (cascade c cl ca false pos fuel).2 = false ↔
        ∀ q, pos ≤ q → q < pos + fuel → cl ≤ c.saved_cycle_lengths q := by
  intro fuel
  induction fuel with
  | zero =>
    intro pos c cl ca
    simp [cascade_zero]
    intro q h1 h2
    omega
  | succ fuel ih =>
    intro pos c cl ca
    by_cases h : c.saved_cycle_lengths pos < cl
    · constructor
      · intro hfalse
        exfalso
        cases harr : c.tested_cycle_bit_arrays pos with
        | some prev =>
          by_cases hp : pos = ARRAYS_TO_STORE - 1
          · rw [cascade_step_last h harr hp] at hfalse
            simp at hfalse
          · rw [cascade_step_bump h harr hp] at hfalse
            rw [cascade_did_true] at hfalse
            simp at hfalse
        | none =>
          rw [cascade_step_empty h harr] at hfalse
          simp at hfalse
      · intro hle
        have := hle pos (Nat.le_refl pos) (by omega)
        omega
    · rw [cascade_step_skip h]
      rw [ih (pos + 1) c cl ca]
      constructor
      · intro hall q h1 h2
        rcases Nat.eq_or_lt_of_le h1 with heq | hlt
        · rw [← heq]; omega
        · exact hall q hlt (by omega)
      · intro hall q h1 h2
        exact hall q (by omega) (by omega)

theorem cascade_eq_of_false (fuel pos : Nat) (c : CycleStore α) (cl : Nat)
    (ca : α) (h2 : (cascade c cl ca false pos fuel).2 = false) :
    (cascade c cl ca false pos fuel).1 = c := by
  have := (cascade_false_iff fuel pos c cl ca).mp h2
  rw [cascade_noupdate fuel pos c cl ca false this]

theorem cascade_lengths_le :
    ∀ (fuel pos : Nat) (c : CycleStore α) (cl : Nat) (ca : α) (did : Bool)
      (q : Nat),
      c.saved_cycle_lengths q ≤ (cascade c cl ca did pos fuel).1.saved_cycle_lengths q := by
  intro fuel
  induction fuel with
  | zero => intro pos c cl ca did q; exact Nat.le_refl _
  | succ fuel ih =>
    intro pos c cl ca did q
    by_cases h : c.saved_cycle_lengths pos < cl
    · have hstep : ∀ z : Nat,
          c.saved_cycle_lengths z ≤ (insertAt c pos cl ca).saved_cycle_lengths z := by
        intro z
        by_cases hz : z = pos
        · rw [hz, insertAt_lengths_self]
          omega
        · rw [insertAt_lengths_ne _ _ _ _ hz]
      cases harr : c.tested_cycle_bit_arrays pos with
      | some prev =>
        by_cases hp : pos = ARRAYS_TO_STORE - 1
        · rw [cascade_step_last h harr hp]
          exact hstep q
        · rw [cascade_step_bump h harr hp]
          exact Nat.le_trans (hstep q) (ih _ _ _ _ _ _)
      | none =>
        rw [cascade_step_empty h harr]
        exact hstep q
    · rw [cascade_step_skip h]
      exact ih _ _ _ _ _ _

end Sfc8

namespace Sfc8

variable {α : Type}

theorem insertAt_sorted {c : CycleStore α} {pos cl : Nat}
    (h3 : sortedLengths c)
    (hup : ∀ q, q < pos → cl ≤ c.saved_cycle_lengths q)
    (hdown : ∀ q, pos < q → q < ARRAYS_TO_STORE → c.saved_cycle_lengths q ≤ cl)
    (ca : α) : sortedLengths (insertAt c pos cl ca) := by
  intro i hi7 j hj7 hij
  by_cases hi : i = pos
  · by_cases hj : j = pos
    · rw [hi, hj]
    · rw [hi, insertAt_lengths_self, insertAt_lengths_ne c pos cl ca hj]
      exact hdown j (by omega) hj7
  · by_cases hj : j = pos
    · rw [hj, insertAt_lengths_self, insertAt_lengths_ne c pos cl ca hi]
      exact hup i (by omega)
    · rw [insertAt_lengths_ne c pos cl ca hi, insertAt_lengths_ne c pos cl ca hj]
      exact h3 i hi7 j hj7 hij

theorem cascade_inv :
    ∀ (fuel pos : Nat) (c : CycleStore α) (cl : Nat) (ca : α) (did : Bool),
      pos + fuel = ARRAYS_TO_STORE →
      c.saved_array_count ≤ ARRAYS_TO_STORE →
      slotsMatchCount c → sortedLengths c → emptySlotsZero c →
      (∀ q, q < pos → cl ≤ c.saved_cycle_lengths q) →
      CacheInv (cascade c cl ca did pos fuel).1 ∧
        ((cascade c cl ca did pos fuel).1.saved_array_count =
            c.saved_array_count ∨
          (cascade c cl ca did pos fuel).1.saved_array_count =
            c.saved_array_count + 1) := by
  intro fuel
  induction fuel with
  | zero =>
    intro pos c cl ca did _hf h1 h2 h3 h4 _h5
    exact ⟨⟨h1, h2, h3, h4⟩, Or.inl rfl⟩
  | succ fuel ih =>
    intro pos c cl ca did hf h1 h2 h3 h4 h5
    have hpos7 : pos < ARRAYS_TO_STORE := by omega
    by_cases h : c.saved_cycle_lengths pos < cl
    · cases harr : c.tested_cycle_bit_arrays pos with
      | some prev =>
        have hposcnt : pos < c.saved_array_count := by
          have := (h2 pos hpos7).mp (by rw [harr]; rfl)
          exact this
        have hsorted' : sortedLengths (insertAt c pos cl ca) := by
          apply insertAt_sorted h3 h5
          intro q hq hq7
          exact Nat.le_trans (h3 pos hpos7 q hq7 (by omega)) (Nat.le_of_lt h)
        have hmatch' : slotsMatchCount (insertAt c pos cl ca) := by
          intro i hi7
          show ((insertAt c pos cl ca).tested_cycle_bit_arrays i).isSome ↔
            i < c.saved_array_count
          by_cases hip : i = pos
          · rw [hip, insertAt_arrays_self]
            simp [hposcnt]
          · rw [insertAt_arrays_ne c pos cl ca hip]
            exact h2 i hi7
        have hzero' : emptySlotsZero (insertAt c pos cl ca) := by
          intro i hi7 hcnt
          have hcnt' : c.saved_array_count ≤ i := hcnt
          by_cases hip : i = pos
          · exfalso
            omega
          · rw [insertAt_lengths_ne c pos cl ca hip]
            exact h4 i hi7 hcnt'
        by_cases hp : pos = ARRAYS_TO_STORE - 1
        · rw [cascade_step_last h harr hp]
          exact ⟨⟨h1, hmatch', hsorted', hzero'⟩, Or.inl rfl⟩
        · rw [cascade_step_bump h harr hp]
          have h5' : ∀ q, q < pos + 1 →
              c.saved_cycle_lengths pos ≤
                (insertAt c pos cl ca).saved_cycle_lengths q := by
            intro q hq
            by_cases hqp : q = pos
            · rw [hqp, insertAt_lengths_self]
              exact Nat.le_of_lt h
            · rw [insertAt_lengths_ne c pos cl ca hqp]
              exact h3 q (by omega) pos hpos7 (by omega)
          exact ih (pos + 1) (insertAt c pos cl ca) (c.saved_cycle_lengths pos)
            prev true (by omega) h1 hmatch' hsorted' hzero' h5'
      | none =>
        rw [cascade_step_empty h harr]
        have hcntpos : c.saved_array_count ≤ pos := by
          have := (h2 pos hpos7)
          rw [harr] at this
          simp at this
          omega
        have hposzero : c.saved_cycle_lengths pos = 0 := h4 pos hpos7 hcntpos
        have hposcnt : pos = c.saved_array_count := by
          by_contra hne
          have hlt : c.saved_array_count < pos := by omega
          have hz : c.saved_cycle_lengths c.saved_array_count = 0 :=
            h4 c.saved_array_count (by omega) (Nat.le_refl _)
          have := h5 c.saved_array_count hlt
          omega
        refine ⟨⟨?_, ?_, ?_, ?_⟩, Or.inr rfl⟩
        · show c.saved_array_count + 1 ≤ ARRAYS_TO_STORE
          omega
        · intro i hi7
          show (Function.update c.tested_cycle_bit_arrays pos (some ca) i).isSome
            ↔ i < c.saved_array_count + 1
          rw [Function.update_apply]
          by_cases hip : i = pos
          · simp [hip]
            omega
          · simp [hip]
            rw [h2 i hi7]
            omega
        · show sortedLengths (insertAt c pos cl ca)
          apply insertAt_sorted h3 h5
          intro q hq hq7
          rw [h4 q hq7 (by omega)]
          omega
        · intro i hi7 hcnt
          have hcnt' : c.saved_array_count + 1 ≤ i := hcnt
          show (insertAt c pos cl ca).saved_cycle_lengths i = 0
          rw [insertAt_lengths_ne c pos cl ca (by omega)]
          exact h4 i hi7 (by omega)
    · rw [cascade_step_skip h]
      have h5' : ∀ q, q < pos + 1 → cl ≤ c.saved_cycle_lengths q := by
        intro q hq
        by_cases hqp : q = pos
        · rw [hqp]
          omega
        · exact h5 q (by omega)
      exact ih (pos + 1) c cl ca did (by omega) h1 h2 h3 h4 h5'

theorem update_inv (c : CycleStore α) (cycle_length : Nat) (arr : α)
    (hInv : CacheInv c) :
    CacheInv (update_tested_cycles c cycle_length arr).1 ∧
      ((update_tested_cycles c cycle_length arr).1.saved_array_count =
          c.saved_array_count ∨
        (update_tested_cycles c cycle_length arr).1.saved_array_count =
          c.saved_array_count + 1) := by
  obtain ⟨h1, h2, h3, h4⟩ := hInv
  unfold update_tested_cycles
  by_cases hc : c.saved_array_count = 0
  · rw [if_pos hc]
    have hall : ∀ i, i < ARRAYS_TO_STORE → c.saved_cycle_lengths i = 0 :=
      fun i hi => h4 i hi (by omega)
    refine ⟨⟨?_, ?_, ?_, ?_⟩, Or.inr (by rw [hc])⟩
    · show (1 : Nat) ≤ ARRAYS_TO_STORE
      norm_num [ARRAYS_TO_STORE]
    · intro i hi7
      show (Function.update c.tested_cycle_bit_arrays 0 (some arr) i).isSome ↔ i < 1
      rw [Function.update_apply]
      by_cases hi0 : i = 0
      · simp [hi0]
      · rw [if_neg hi0]
        constructor
        · intro hsome
          have := (h2 i hi7).mp hsome
          omega
        · intro hlt
          exfalso
          omega
    · show sortedLengths (insertAt c 0 cycle_length arr)
      apply insertAt_sorted h3
      · intro q hq
        omega
      · intro q hq hq7
        rw [hall q hq7]
        omega
    · intro i hi7 hcnt
      have hcnt' : 1 ≤ i := hcnt
      show (insertAt c 0 cycle_length arr).saved_cycle_lengths i = 0
      rw [insertAt_lengths_ne c 0 cycle_length arr (by omega)]
      exact hall i hi7
  · rw [if_neg hc]
    exact cascade_inv ARRAYS_TO_STORE 0 c cycle_length arr false rfl h1 h2 h3 h4
      (fun q hq => by omega)

theorem emptyStore_inv : CacheInv (emptyStore α) := by
  refine ⟨by norm_num [emptyStore, ARRAYS_TO_STORE], ?_, ?_, ?_⟩
  · intro i _
    simp [emptyStore]
  · intro i j _ _
    simp [emptyStore]
  · intro i _ _
    rfl

end Sfc8

namespace Sfc8

variable {α : Type}

theorem insertAt_slotsMatch {c : CycleStore α} {pos cl : Nat} {ca : α}
    (h2 : slotsMatchCount c) (hposcnt : pos < c.saved_array_count) :
    slotsMatchCount (insertAt c pos cl ca) := by
  intro i hi7
  show ((insertAt c pos cl ca).tested_cycle_bit_arrays i).isSome ↔
    i < c.saved_array_count
  by_cases hip : i = pos
  · rw [hip, insertAt_arrays_self]
    simp [hposcnt]
  · rw [insertAt_arrays_ne c pos cl ca hip]
    exact h2 i hi7

theorem insertAt_emptyZero {c : CycleStore α} {pos cl : Nat} {ca : α}
    (h4 : emptySlotsZero c) (hposcnt : pos < c.saved_array_count) :
    emptySlotsZero (insertAt c pos cl ca) := by
  intro i hi7 hcnt
  have hcnt' : c.saved_array_count ≤ i := hcnt
  by_cases hip : i = pos
  · exfalso
    omega
  · rw [insertAt_lengths_ne c pos cl ca hip]
    exact h4 i hi7 hcnt'

theorem insertAt_posLengths {c : CycleStore α} {pos cl : Nat} {ca : α}
    (hp : posLengths c) (hcl : 1 ≤ cl) : posLengths (insertAt c pos cl ca) := by
  intro i hi7 hicnt
  have hicnt' : i < c.saved_array_count := hicnt
  by_cases hip : i = pos
  · rw [hip, insertAt_lengths_self]
    exact hcl
  · rw [insertAt_lengths_ne c pos cl ca hip]
    exact hp i hi7 hicnt'

theorem cascade_growth :
    ∀ (fuel pos : Nat) (c : CycleStore α) (cl : Nat) (ca : α) (did : Bool),
      pos + fuel = ARRAYS_TO_STORE →
      c.saved_array_count < ARRAYS_TO_STORE →
      pos ≤ c.saved_array_count →
      slotsMatchCount c → emptySlotsZero c → posLengths c → 1 ≤ cl →
      (cascade c cl ca did pos fuel).1.saved_array_count =
          c.saved_array_count + 1 ∧
        (cascade c cl ca did pos fuel).2 = true ∧
        retained (cascade c cl ca did pos fuel).1 ca ∧
        (∀ x, retained c x → retained (cascade c cl ca did pos fuel).1 x) := by
  intro fuel
  induction fuel with
  | zero =>
    intro pos c cl ca did hf hcnt hpos _h2 _h4 _hp _hcl
    exfalso
    omega
  | succ fuel ih =>
    intro pos c cl ca did hf hcnt hpos h2 h4 hp hcl
    have hpos7 : pos < ARRAYS_TO_STORE := by omega
    by_cases h : c.saved_cycle_lengths pos < cl
    · cases harr : c.tested_cycle_bit_arrays pos with
      | some prev =>
        have hposcnt : pos < c.saved_array_count :=
          (h2 pos hpos7).mp (by rw [harr]; rfl)
        have hpne : ¬ pos = ARRAYS_TO_STORE - 1 := by omega
        rw [cascade_step_bump h harr hpne]
        have hprevpos : 1 ≤ c.saved_cycle_lengths pos := hp pos hpos7 hposcnt
        have hcnt' : (insertAt c pos cl ca).saved_array_count <
            ARRAYS_TO_STORE := hcnt
        have hpos' : pos + 1 ≤ (insertAt c pos cl ca).saved_array_count :=
          hposcnt
        obtain ⟨ihc, iht, ihr, ihm⟩ := ih (pos + 1) (insertAt c pos cl ca)
          (c.saved_cycle_lengths pos) prev true (by omega) hcnt' hpos'
          (insertAt_slotsMatch h2 hposcnt) (insertAt_emptyZero h4 hposcnt)
          (insertAt_posLengths hp hcl) hprevpos
        refine ⟨ihc, iht, ?_, ?_⟩
        · refine ⟨pos, hpos7, ?_⟩
          have hfr := (cascade_frame_lt fuel (pos + 1) (insertAt c pos cl ca)
            (c.saved_cycle_lengths pos) prev true pos (by omega)).2
          rw [hfr, insertAt_arrays_self]
        · intro x hx
          obtain ⟨i, hi7, hxi⟩ := hx
          by_cases hip : i = pos
          · have hxprev : x = prev := by
              rw [hip, harr] at hxi
              exact (Option.some.injEq _ _).mp hxi.symm
            rw [hxprev]
            exact ihr
          · apply ihm
            refine ⟨i, hi7, ?_⟩
            rw [insertAt_arrays_ne c pos cl ca hip]
            exact hxi
      | none =>
        have hcntpos : ¬ pos < c.saved_array_count := by
          intro hlt
          have := (h2 pos hpos7).mpr hlt
          rw [harr] at this
          simp at this
        have hposeq : pos = c.saved_array_count := by omega
        rw [cascade_step_empty h harr]
        refine ⟨rfl, rfl, ⟨pos, hpos7, ?_⟩, ?_⟩
        · show (insertAt c pos cl ca).tested_cycle_bit_arrays pos = some ca
          exact insertAt_arrays_self c pos cl ca
        · intro x hx
          obtain ⟨i, hi7, hxi⟩ := hx
          have hisome : i < c.saved_array_count := by
            apply (h2 i hi7).mp
            rw [hxi]
            rfl
          refine ⟨i, hi7, ?_⟩
          show (insertAt c pos cl ca).tested_cycle_bit_arrays i = some x
          rw [insertAt_arrays_ne c pos cl ca (by omega)]
          exact hxi
    · have hposlt : pos < c.saved_array_count := by
        rcases Nat.eq_or_lt_of_le hpos with heq | hlt
        · exfalso
          have : c.saved_cycle_lengths pos = 0 := h4 pos hpos7 (by omega)
          omega
        · exact hlt
      rw [cascade_step_skip h]
      exact ih (pos + 1) c cl ca did (by omega) hcnt hposlt h2 h4 hp hcl

end Sfc8

namespace Sfc8

variable {α : Type}

theorem cascade_full :
    ∀ (fuel pos : Nat) (c : CycleStore α) (cl : Nat) (ca : α) (did : Bool),
      pos + fuel = ARRAYS_TO_STORE →
      (∀ i, pos ≤ i → i < ARRAYS_TO_STORE →
        (c.tested_cycle_bit_arrays i).isSome) →
      (∀ i j, pos ≤ i → i ≤ j → j < ARRAYS_TO_STORE →
        c.saved_cycle_lengths j ≤ c.saved_cycle_lengths i) →
      (cascade c cl ca did pos fuel).1.saved_array_count =
          c.saved_array_count ∧
        ((cascade c cl ca did pos fuel = (c, did) ∧
            ∀ q, pos ≤ q → q < ARRAYS_TO_STORE →
              cl ≤ c.saved_cycle_lengths q) ∨
          ((cascade c cl ca did pos fuel).2 = true ∧
            retained (cascade c cl ca did pos fuel).1 ca ∧
            ∃ p, pos ≤ p ∧ p < ARRAYS_TO_STORE ∧
              (∀ x, retained c x →
                retained (cascade c cl ca did pos fuel).1 x ∨
                  c.tested_cycle_bit_arrays p = some x) ∧
              ((∀ i j, pos ≤ i → pos ≤ j → i < ARRAYS_TO_STORE →
                  j < ARRAYS_TO_STORE → i ≠ j →
                  c.saved_cycle_lengths i ≠ c.saved_cycle_lengths j) →
                p = ARRAYS_TO_STORE - 1))) := by
  intro fuel
  induction fuel with
  | zero =>
    intro pos c cl ca did hf _hsome _hsort
    refine ⟨rfl, Or.inl ⟨rfl, ?_⟩⟩
    intro q hq hq7
    exfalso
    omega
  | succ fuel ih =>
    intro pos c cl ca did hf hsome hsort
    have hpos7 : pos < ARRAYS_TO_STORE := by omega
    by_cases h : c.saved_cycle_lengths pos < cl
    · cases harr : c.tested_cycle_bit_arrays pos with
      | none =>
        exfalso
        have := hsome pos (Nat.le_refl pos) hpos7
        rw [harr] at this
        simp at this
      | some prev =>
        by_cases hp : pos = ARRAYS_TO_STORE - 1
        · rw [cascade_step_last h harr hp]
          refine ⟨rfl, Or.inr ⟨rfl, ⟨pos, hpos7, insertAt_arrays_self c pos cl ca⟩,
            pos, Nat.le_refl pos, hpos7, ?_, fun _ => hp⟩⟩
          intro x hx
          obtain ⟨i, hi7, hxi⟩ := hx
          by_cases hip : i = pos
          · right
            rw [← hip]
            exact hxi
          · left
            refine ⟨i, hi7, ?_⟩
            rw [insertAt_arrays_ne c pos cl ca hip]
            exact hxi
        · rw [cascade_step_bump h harr hp]
          have hsome' : ∀ i, pos + 1 ≤ i → i < ARRAYS_TO_STORE →
              ((insertAt c pos cl ca).tested_cycle_bit_arrays i).isSome := by
            intro i hi hi7
            rw [insertAt_arrays_ne c pos cl ca (by omega)]
            exact hsome i (by omega) hi7
          have hsort' : ∀ i j, pos + 1 ≤ i → i ≤ j → j < ARRAYS_TO_STORE →
              (insertAt c pos cl ca).saved_cycle_lengths j ≤
                (insertAt c pos cl ca).saved_cycle_lengths i := by
            intro i j hi hij hj7
            rw [insertAt_lengths_ne c pos cl ca (by omega : i ≠ pos),
              insertAt_lengths_ne c pos cl ca (by omega : j ≠ pos)]
            exact hsort i j (by omega) hij hj7
          obtain ⟨ihcnt, ihcase⟩ := ih (pos + 1) (insertAt c pos cl ca)
            (c.saved_cycle_lengths pos) prev true (by omega) hsome' hsort'
          have hcnt : (cascade (insertAt c pos cl ca)
              (c.saved_cycle_lengths pos) prev true (pos + 1)
              fuel).1.saved_array_count = c.saved_array_count := ihcnt
          rcases ihcase with ⟨heq, hwin⟩ | ⟨ht, hret, p', hp'pos, hp'7, hp'mem, hp'dist⟩
          · refine ⟨hcnt, Or.inr ⟨by rw [heq], ?_, pos, Nat.le_refl pos, hpos7,
              ?_, ?_⟩⟩
            · rw [heq]
              exact ⟨pos, hpos7, insertAt_arrays_self c pos cl ca⟩
            · intro x hx
              obtain ⟨i, hi7, hxi⟩ := hx
              by_cases hip : i = pos
              · right
                rw [← hip]
                exact hxi
              · left
                rw [heq]
                refine ⟨i, hi7, ?_⟩
                rw [insertAt_arrays_ne c pos cl ca hip]
                exact hxi
            · intro hdist
              by_contra hne
              have hlast : pos + 1 ≤ ARRAYS_TO_STORE - 1 := by omega
              have h6 := hwin (ARRAYS_TO_STORE - 1) hlast (by omega)
              rw [insertAt_lengths_ne c pos cl ca (by omega)] at h6
              have h6' := hsort pos (ARRAYS_TO_STORE - 1) (Nat.le_refl pos)
                (by omega) (by omega)
              exact hdist pos (ARRAYS_TO_STORE - 1) (Nat.le_refl pos) (by omega)
                hpos7 (by omega) (by omega) (by omega)
          · refine ⟨hcnt, Or.inr ⟨ht, ?_, p', by omega, hp'7, ?_, ?_⟩⟩
            · have hfr := (cascade_frame_lt fuel (pos + 1) (insertAt c pos cl ca)
                (c.saved_cycle_lengths pos) prev true pos (by omega)).2
              refine ⟨pos, hpos7, ?_⟩
              rw [hfr, insertAt_arrays_self]
            · intro x hx
              obtain ⟨i, hi7, hxi⟩ := hx
              by_cases hip : i = pos
              · left
                have hxprev : x = prev := by
                  rw [hip, harr] at hxi
                  exact (Option.some.injEq _ _).mp hxi.symm
                rw [hxprev]
                exact hret
              · have hx' : retained (insertAt c pos cl ca) x := by
                  refine ⟨i, hi7, ?_⟩
                  rw [insertAt_arrays_ne c pos cl ca hip]
                  exact hxi
                rcases hp'mem x hx' with hl | hr
                · left
                  exact hl
                · right
                  rw [insertAt_arrays_ne c pos cl ca (by omega)] at hr
                  exact hr
            · intro hdist
              apply hp'dist
              intro i j hi hj hi7 hj7 hij
              rw [insertAt_lengths_ne c pos cl ca (by omega : i ≠ pos),
                insertAt_lengths_ne c pos cl ca (by omega : j ≠ pos)]
              exact hdist i j (by omega) (by omega) hi7 hj7 hij
    · rw [cascade_step_skip h]
      have hsome' : ∀ i, pos + 1 ≤ i → i < ARRAYS_TO_STORE →
          (c.tested_cycle_bit_arrays i).isSome :=
        fun i hi hi7 => hsome i (by omega) hi7
      have hsort' : ∀ i j, pos + 1 ≤ i → i ≤ j → j < ARRAYS_TO_STORE →
          c.saved_cycle_lengths j ≤ c.saved_cycle_lengths i :=
        fun i j hi hij hj7 => hsort i j (by omega) hij hj7
      obtain ⟨ihcnt, ihcase⟩ := ih (pos + 1) c cl ca did (by omega) hsome' hsort'
      refine ⟨ihcnt, ?_⟩
      rcases ihcase with ⟨heq, hwin⟩ | ⟨ht, hret, p', hp'pos, hp'7, hp'mem, hp'dist⟩
      · refine Or.inl ⟨heq, ?_⟩
        intro q hq hq7
        rcases Nat.eq_or_lt_of_le hq with heq' | hlt
        · rw [← heq']
          omega
        · exact hwin q hlt hq7
      · refine Or.inr ⟨ht, hret, p', by omega, hp'7, hp'mem, ?_⟩
        intro hdist
        apply hp'dist
        intro i j hi hj hi7 hj7 hij
        exact hdist i j (by omega) (by omega) hi7 hj7 hij

end Sfc8

namespace Sfc8

variable {α : Type}

/- ### consider-phase lemmas (C8) -/

theorem update_false_iff (c : CycleStore α) (len : Nat) (arr : α) :
    (update_tested_cycles c len arr).2 = false ↔
      c.saved_array_count ≠ 0 ∧
        ∀ p, p < ARRAYS_TO_STORE → len ≤ c.saved_cycle_lengths p := by
  unfold update_tested_cycles
  by_cases hc : c.saved_array_count = 0
  · rw [if_pos hc]
    simp [hc]
  · rw [if_neg hc]
    rw [cascade_false_iff ARRAYS_TO_STORE 0 c len arr]
    constructor
    · intro hall
      exact ⟨hc, fun p hp => hall p (by omega) (by omega)⟩
    · intro hall q _hq hq7
      exact hall.2 q (by omega)

theorem update_frame_of_false (c : CycleStore α) (len : Nat) (arr : α)
    (h : (update_tested_cycles c len arr).2 = false) :
    (update_tested_cycles c len arr).1 = c := by
  unfold update_tested_cycles at h ⊢
  by_cases hc : c.saved_array_count = 0
  · rw [if_pos hc] at h
    simp at h
  · rw [if_neg hc] at h ⊢
    exact cascade_eq_of_false ARRAYS_TO_STORE 0 c len arr h

theorem consider_phase_of_false (g : ScanState) (fresh : Nat → Nat) (len : Nat)
    (marks : Nat → Nat)
    (h : (update_tested_cycles g.cache len marks).2 = false) :
    consider_phase g fresh len marks =
      { cache := g.cache, cycle_bit_array := marks, allocs := g.allocs } := by
  unfold consider_phase
  rw [if_neg (by rw [h]; simp)]
  rw [update_frame_of_false g.cache len marks h]

theorem consider_phase_of_true (g : ScanState) (fresh : Nat → Nat) (len : Nat)
    (marks : Nat → Nat)
    (h : (update_tested_cycles g.cache len marks).2 = true) :
    consider_phase g fresh len marks =
      { cache := (update_tested_cycles g.cache len marks).1
      , cycle_bit_array := fresh, allocs := g.allocs + 1 } := by
  unfold consider_phase
  rw [if_pos h]

/- ### Lookup lemmas (C4) -/

theorem findHit_some :
    ∀ (fuel idx : Nat) (c : CycleStore (Nat → Nat)) (key i : Nat),
      findHit c key idx fuel = some i →
      idx ≤ i ∧ i < idx + fuel ∧
        test_bit_opt (c.tested_cycle_bit_arrays i) key = true ∧
        ∀ j, idx ≤ j → j < i →
          test_bit_opt (c.tested_cycle_bit_arrays j) key = false := by
  intro fuel
  induction fuel with
  | zero =>
    intro idx c key i h
    exact absurd h (by simp [findHit])
  | succ fuel ih =>
    intro idx c key i h
    unfold findHit at h
    by_cases ht : test_bit_opt (c.tested_cycle_bit_arrays idx) key = true
    · rw [if_pos ht] at h
      have hidx : idx = i := by
        have := h
        simp at this
        exact this
      subst hidx
      refine ⟨Nat.le_refl _, by omega, ht, ?_⟩
      intro j h1 h2
      exfalso
      omega
    · rw [if_neg ht] at h
      obtain ⟨h1, h2, h3, h4⟩ := ih (idx + 1) c key i h
      refine ⟨by omega, by omega, h3, ?_⟩
      intro j hj1 hj2
      rcases Nat.eq_or_lt_of_le hj1 with heq | hlt
      · rw [← heq]
        simpa using ht
      · exact h4 j hlt hj2

theorem findHit_none_iff :
    ∀ (fuel idx : Nat) (c : CycleStore (Nat → Nat)) (key : Nat),
      findHit c key idx fuel = none ↔
        ∀ j, idx ≤ j → j < idx + fuel →
          test_bit_opt (c.tested_cycle_bit_arrays j) key = false := by
  intro fuel
  induction fuel with
  | zero =>
    intro idx c key
    constructor
    · intro _ j h1 h2
      exfalso
      omega
    · intro _
      rfl
  | succ fuel ih =>
    intro idx c key
    unfold findHit
    by_cases ht : test_bit_opt (c.tested_cycle_bit_arrays idx) key = true
    · rw [if_pos ht]
      constructor
      · intro h
        exact absurd h (by simp)
      · intro hall
        have := hall idx (Nat.le_refl _) (by omega)
        rw [ht] at this
        exact absurd this (by simp)
    · rw [if_neg ht]
      rw [ih (idx + 1) c key]
      constructor
      · intro hall j h1 h2
        rcases Nat.eq_or_lt_of_le h1 with heq | hlt
        · rw [← heq]
          simpa using ht
        · exact hall j hlt (by omega)
      · intro hall j h1 h2
        exact hall j (by omega) (by omega)

/- ### Trace-loop lemmas (C3, C10) -/

theorem traceAux_zero (array : Nat → Nat) (st : sfc8_t) (counter : Nat) :
    traceAux array st counter 0 = (counter, array) := rfl

theorem traceAux_succ (array : Nat → Nat) (st : sfc8_t) (counter fuel : Nat) :
    traceAux array st counter (fuel + 1) =
      if test_bit array (encode_state st) = true then
        (counter, (test_and_set_bit array (encode_state st)).2)
      else
        traceAux (test_and_set_bit array (encode_state st)).2 (sfc8_advance st)
          (counter + 1) fuel := rfl

theorem iterAdv_succ_out (n : Nat) (s : sfc8_t) :
    iterAdv (n + 1) s = sfc8_advance (iterAdv n s) := by
  induction n generalizing s with
  | zero => rfl
  | succ n ih =>
    show iterAdv (n + 1) (sfc8_advance s) = _
    rw [ih (sfc8_advance s)]
    rfl

theorem wf_iterAdv (n : Nat) (s : sfc8_t) (hs : wf s) : wf (iterAdv n s) := by
  induction n generalizing s with
  | zero => exact hs
  | succ n ih => exact ih (sfc8_advance s) (wf_advance s)

end Sfc8

namespace Sfc8

theorem traceAux_spec (s : sfc8_t) (hs : wf s) :
    ∀ (fuel k : Nat) (array : Nat → Nat),
      (∀ q, test_bit array q = true ↔
        ∃ j, j < k ∧ encode_state (iterAdv j s) = q) →
      k ≤ (traceAux array (iterAdv k s) k fuel).1 ∧
        (traceAux array (iterAdv k s) k fuel).1 ≤ k + fuel ∧
        (∀ j, k ≤ j → j < (traceAux array (iterAdv k s) k fuel).1 →
          ∀ i, i < j → iterAdv i s ≠ iterAdv j s) ∧
        ((traceAux array (iterAdv k s) k fuel).1 < k + fuel →
          ∃ m, m < (traceAux array (iterAdv k s) k fuel).1 ∧
            iterAdv ((traceAux array (iterAdv k s) k fuel).1) s =
              iterAdv m s) := by
  intro fuel
  induction fuel with
  | zero =>
    intro k array _harr
    rw [traceAux_zero]
    refine ⟨Nat.le_refl _, by omega, ?_, ?_⟩
    · intro j h1 h2 i hi
      exfalso
      simp at h2
      omega
    · intro h
      exfalso
      simp at h
  | succ fuel ih =>
    intro k array harr
    rw [traceAux_succ]
    by_cases ht : test_bit array (encode_state (iterAdv k s)) = true
    · rw [if_pos ht]
      dsimp only
      refine ⟨Nat.le_refl _, by omega, ?_, ?_⟩
      · intro j h1 h2 i hi
        exfalso
        omega
      · intro _
        obtain ⟨j, hj, hkey⟩ := (harr (encode_state (iterAdv k s))).mp ht
        exact ⟨j, hj,
          (encode_inj (wf_iterAdv j s hs) (wf_iterAdv k s hs) hkey).symm⟩
    · rw [if_neg ht]
      have harr' : ∀ q,
          test_bit (test_and_set_bit array (encode_state (iterAdv k s))).2 q =
              true ↔
            ∃ j, j < k + 1 ∧ encode_state (iterAdv j s) = q := by
        intro q
        rw [test_bit_after_set]
        constructor
        · intro hor
          rcases Bool.or_eq_true_iff.mp hor with hl | hr
          · obtain ⟨j, hj, hq⟩ := (harr q).mp hl
            exact ⟨j, by omega, hq⟩
          · have hq : q = encode_state (iterAdv k s) := of_decide_eq_true hr
            exact ⟨k, by omega, hq.symm⟩
        · intro hex
          obtain ⟨j, hj, hq⟩ := hex
          by_cases hjk : j = k
          · apply Bool.or_eq_true_iff.mpr
            right
            apply decide_eq_true
            rw [← hq, hjk]
          · apply Bool.or_eq_true_iff.mpr
            left
            exact (harr q).mpr ⟨j, by omega, hq⟩
      have hadv : sfc8_advance (iterAdv k s) = iterAdv (k + 1) s :=
        (iterAdv_succ_out k s).symm
      rw [hadv]
      obtain ⟨ih1, ih2, ih3, ih4⟩ :=
        ih (k + 1) (test_and_set_bit array (encode_state (iterAdv k s))).2 harr'
      refine ⟨by omega, by omega, ?_, ?_⟩
      · intro j h1 h2 i hi
        by_cases hjk : j = k
        · subst hjk
          intro heq
          exact ht ((harr _).mpr ⟨i, hi, by rw [heq]⟩)
        · exact ih3 j (by omega) h2 i hi
      · intro h
        exact ih4 (by omega)

end Sfc8

namespace Sfc8

variable {α : Type}

/- ### Scanner-level lemmas -/

theorem traceAux_counter_le :
    ∀ (fuel : Nat) (array : Nat → Nat) (st : sfc8_t) (counter : Nat),
      counter ≤ (traceAux array st counter fuel).1 := by
  intro fuel
  induction fuel with
  | zero =>
    intro array st counter
    rw [traceAux_zero]
  | succ fuel ih =>
    intro array st counter
    rw [traceAux_succ]
    by_cases ht : test_bit array (encode_state st) = true
    · rw [if_pos ht]
    · rw [if_neg ht]
      exact Nat.le_trans (Nat.le_succ counter) (ih _ _ _)

theorem trace_result_pos (s : sfc8_t) : 1 ≤ trace_result s := by
  unfold trace_result
  have hP : POSSIBLE_STATES = 4294967295 + 1 := by norm_num [POSSIBLE_STATES]
  rw [hP, traceAux_succ, if_neg (by simp [test_bit_zeroed])]
  exact traceAux_counter_le _ _ _ _

theorem test_seed_hit (g : ScanState) (fresh : Nat → Nat) (seed idx : Nat)
    (h : check_existing_arrays g.cache (encode_state (seed_to_state seed)) =
      some idx) :
    test_seed_for_cycle g fresh seed =
      (g, g.cache.saved_cycle_lengths idx, true) := by
  simp only [test_seed_for_cycle]
  rw [h]

theorem test_seed_miss (g : ScanState) (fresh : Nat → Nat) (seed : Nat)
    (h : check_existing_arrays g.cache (encode_state (seed_to_state seed)) =
      none) :
    test_seed_for_cycle g fresh seed =
      (consider_phase g fresh
          (traceAux zeroed_bit_array (seed_to_state seed) 0 POSSIBLE_STATES).1
          (traceAux zeroed_bit_array (seed_to_state seed) 0 POSSIBLE_STATES).2,
        (traceAux zeroed_bit_array (seed_to_state seed) 0 POSSIBLE_STATES).1,
        false) := by
  simp only [test_seed_for_cycle]
  rw [h]

theorem consider_phase_cache (g : ScanState) (fresh : Nat → Nat) (len : Nat)
    (marks : Nat → Nat) :
    (consider_phase g fresh len marks).cache =
      (update_tested_cycles g.cache len marks).1 := by
  unfold consider_phase
  by_cases h : (update_tested_cycles g.cache len marks).2 = true
  · rw [if_pos h]
  · rw [if_neg h]

theorem test_seed_cache_inv (g : ScanState) (fresh : Nat → Nat) (seed : Nat)
    (h : CacheInv g.cache) :
    CacheInv (test_seed_for_cycle g fresh seed).1.cache := by
  cases hchk : check_existing_arrays g.cache
      (encode_state (seed_to_state seed)) with
  | some idx =>
    rw [test_seed_hit g fresh seed idx hchk]
    exact h
  | none =>
    rw [test_seed_miss g fresh seed hchk]
    show CacheInv (consider_phase g fresh _ _).cache
    rw [consider_phase_cache]
    exact (update_inv g.cache _ _ h).1

theorem scan_state_cache_inv (oracle : Nat → Nat → Nat) (s0 : Nat → Nat)
    (n : Nat) : CacheInv (scan_state oracle s0 n).cache := by
  induction n with
  | zero => exact emptyStore_inv
  | succ n ih => exact test_seed_cache_inv _ _ _ ih

theorem foldr_max_mono :
    ∀ (l : List Nat) (f g : Nat → Nat), (∀ i, i ∈ l → f i ≤ g i) →
      (l.map f).foldr max 0 ≤ (l.map g).foldr max 0 := by
  intro l
  induction l with
  | nil =>
    intro f g _
    exact Nat.le_refl _
  | cons a l ih =>
    intro f g h
    simp only [List.map_cons, List.foldr_cons]
    exact max_le_max (h a (by simp))
      (ih f g (fun i hi => h i (by simp [hi])))

theorem update_lengths_le (c : CycleStore α) (len : Nat) (arr : α)
    (hInv : CacheInv c) (q : Nat) :
    c.saved_cycle_lengths q ≤
      (update_tested_cycles c len arr).1.saved_cycle_lengths q := by
  obtain ⟨_h1, _h2, _h3, h4⟩ := hInv
  unfold update_tested_cycles
  by_cases hc : c.saved_array_count = 0
  · rw [if_pos hc]
    show _ ≤ (insertAt c 0 len arr).saved_cycle_lengths q
    by_cases hq : q = 0
    · rw [hq, insertAt_lengths_self]
      have : c.saved_cycle_lengths 0 = 0 :=
        h4 0 (by norm_num [ARRAYS_TO_STORE]) (by omega)
      omega
    · rw [insertAt_lengths_ne c 0 len arr hq]
  · rw [if_neg hc]
    exact cascade_lengths_le ARRAYS_TO_STORE 0 c len arr false q

theorem cacheMax_le_update (c : CycleStore α) (len : Nat) (arr : α)
    (hInv : CacheInv c) :
    cacheMax c ≤ cacheMax (update_tested_cycles c len arr).1 := by
  unfold cacheMax
  exact foldr_max_mono _ _ _ (fun i _ => update_lengths_le c len arr hInv i)

theorem test_seed_cacheMax (g : ScanState) (fresh : Nat → Nat) (seed : Nat)
    (h : CacheInv g.cache) :
    cacheMax g.cache ≤ cacheMax (test_seed_for_cycle g fresh seed).1.cache := by
  cases hchk : check_existing_arrays g.cache
      (encode_state (seed_to_state seed)) with
  | some idx =>
    rw [test_seed_hit g fresh seed idx hchk]
  | none =>
    rw [test_seed_miss g fresh seed hchk]
    show cacheMax g.cache ≤ cacheMax (consider_phase g fresh _ _).cache
    rw [consider_phase_cache]
    exact cacheMax_le_update g.cache _ _ h

end Sfc8

namespace Sfc8

variable {α : Type}

/- ### Claims -/

/-- C1: the generator transition reproduces the specified update bit-for-bit.
On every well-formed state, `sfc8_advance` (translated from the source, with
8-bit wraparound on each field assignment) coincides with the update as the
specification words it: `t = a + b + d` using the old `d`, `d` incremented
mod 256, `a' = b XOR (b >> 2)` from the old `b`, `b' = c + (c << 1)` mod 256
from the old `c`, and `c' = t + rotate_left(c, 3)` mod 256 from the old `c`
and `t`. -/
theorem claim_C1 (s : sfc8_t) (hs : wf s) :
    sfc8_advance s = sfc8_advance_spec s :=
  advance_eq_spec s hs

/-- Witness for C1 at the concrete state (17, 35, 96, 204). -/
theorem claim_C1_witness :
    wf ⟨17, 35, 96, 204⟩ ∧
      sfc8_advance ⟨17, 35, 96, 204⟩ = sfc8_advance_spec ⟨17, 35, 96, 204⟩ :=
  ⟨by decide, claim_C1 ⟨17, 35, 96, 204⟩ (by decide)⟩

/-- C9: the state encoding is a bijection between 4-byte generator states and
32-bit keys.  `decode_state` recovers each little-endian packed field
(`key % 256 = a`, `key >> 8 % 256 = b`, `key >> 16 % 256 = c`,
`key >> 24 % 256 = d`), the key is below 2^32, and two states with the same
encoding are equal. -/
theorem claim_C9 (s t : sfc8_t) (hs : wf s) (ht : wf t) :
    decode_state (encode_state s) = s ∧
      encode_state s < POSSIBLE_STATES ∧
      (encode_state s = encode_state t → s = t) :=
  ⟨decode_encode s hs, encode_lt s hs, fun h => encode_inj hs ht h⟩

/-- Witness for C9 at the concrete states (1, 2, 3, 4) and (251, 0, 7, 130). -/
theorem claim_C9_witness :
    (wf ⟨1, 2, 3, 4⟩ ∧ wf ⟨251, 0, 7, 130⟩) ∧
      (decode_state (encode_state ⟨1, 2, 3, 4⟩) = ⟨1, 2, 3, 4⟩ ∧
        encode_state ⟨1, 2, 3, 4⟩ < POSSIBLE_STATES ∧
        (encode_state ⟨1, 2, 3, 4⟩ = encode_state ⟨251, 0, 7, 130⟩ →
          (⟨1, 2, 3, 4⟩ : sfc8_t) = ⟨251, 0, 7, 130⟩)) :=
  ⟨⟨by decide, by decide⟩,
    claim_C9 ⟨1, 2, 3, 4⟩ ⟨251, 0, 7, 130⟩ (by decide) (by decide)⟩

/-- C3: from any well-formed initial state, over an all-zero scratch vector,
the trace loop stops within at most 2^32 iterations; the states seen before
the returned count are pairwise distinct (so the count is the number of
distinct states visited, stated below as the cardinality of their image); and
if the loop stopped before exhausting the 2^32 bound, the next state repeats
one already visited — the count is exactly the number of distinct states
visited before the first repeated key. -/
theorem claim_C3 (s : sfc8_t) (hs : wf s) :
    trace_result s ≤ POSSIBLE_STATES ∧
      (∀ i j, i < j → j < trace_result s → iterAdv i s ≠ iterAdv j s) ∧
      (trace_result s < POSSIBLE_STATES →
        ∃ m, m < trace_result s ∧
          iterAdv (trace_result s) s = iterAdv m s) ∧
      ((Finset.range (trace_result s)).image (fun i => iterAdv i s)).card =
        trace_result s := by
  have h0 : ∀ q, test_bit zeroed_bit_array q = true ↔
      ∃ j, j < 0 ∧ encode_state (iterAdv j s) = q := by
    intro q
    simp [test_bit_zeroed]
  obtain ⟨h1, h2, h3, h4⟩ := traceAux_spec s hs POSSIBLE_STATES 0
    zeroed_bit_array h0
  have e : trace_result s =
      (traceAux zeroed_bit_array (iterAdv 0 s) 0 POSSIBLE_STATES).1 := rfl
  rw [e]
  have hdist : ∀ i j, i < j →
      j < (traceAux zeroed_bit_array (iterAdv 0 s) 0 POSSIBLE_STATES).1 →
      iterAdv i s ≠ iterAdv j s := by
    intro i j hij hj
    exact h3 j (by omega) hj i hij
  refine ⟨by omega, hdist, ?_, ?_⟩
  · intro hlt
    exact h4 (by omega)
  · rw [Finset.card_image_of_injOn, Finset.card_range]
    intro i hi j hj hij
    by_contra hne
    rcases Nat.lt_or_ge i j with hlt | hge
    · exact hdist i j hlt (by simpa using hj) hij
    · have hji : j < i := by omega
      exact hdist j i hji (by simpa using hi) hij.symm

/-- Witness for C3 at the concrete initial state (0, 0, 0, 1). -/
theorem claim_C3_witness :
    wf ⟨0, 0, 0, 1⟩ ∧
      (trace_result ⟨0, 0, 0, 1⟩ ≤ POSSIBLE_STATES ∧
        (∀ i j, i < j → j < trace_result ⟨0, 0, 0, 1⟩ →
          iterAdv i ⟨0, 0, 0, 1⟩ ≠ iterAdv j ⟨0, 0, 0, 1⟩) ∧
        (trace_result ⟨0, 0, 0, 1⟩ < POSSIBLE_STATES →
          ∃ m, m < trace_result ⟨0, 0, 0, 1⟩ ∧
            iterAdv (trace_result ⟨0, 0, 0, 1⟩) ⟨0, 0, 0, 1⟩ =
              iterAdv m ⟨0, 0, 0, 1⟩) ∧
        ((Finset.range (trace_result ⟨0, 0, 0, 1⟩)).image
            (fun i => iterAdv i ⟨0, 0, 0, 1⟩)).card =
          trace_result ⟨0, 0, 0, 1⟩) :=
  ⟨by decide, claim_C3 ⟨0, 0, 0, 1⟩ (by decide)⟩

/-- C10: on every cache miss the scratch vector is reset to all-zero before
the trace loop begins — the reported length is the trace over the zeroed
vector, independent of the incoming scratch contents (two global states with
the same cache report identically, whatever their scratch or allocation
history) — and consequently every traced seed reports a length of at least 1. -/
theorem claim_C10 (g : ScanState) (fresh : Nat → Nat) (seed : Nat) :
    (check_existing_arrays g.cache (encode_state (seed_to_state seed)) =
        none →
      (test_seed_for_cycle g fresh seed).2.1 =
          trace_result (seed_to_state seed) ∧
        1 ≤ (test_seed_for_cycle g fresh seed).2.1 ∧
        (test_seed_for_cycle g fresh seed).2.2 = false) ∧
      ∀ g' : ScanState, g.cache = g'.cache →
        (test_seed_for_cycle g fresh seed).2 =
          (test_seed_for_cycle g' fresh seed).2 := by
  constructor
  · intro h
    rw [test_seed_miss g fresh seed h]
    exact ⟨rfl, trace_result_pos (seed_to_state seed), rfl⟩
  · intro g' hcache
    cases hchk : check_existing_arrays g'.cache
        (encode_state (seed_to_state seed)) with
    | some idx =>
      have hchk0 : check_existing_arrays g.cache
          (encode_state (seed_to_state seed)) = some idx := by
        rw [hcache]
        exact hchk
      rw [test_seed_hit g fresh seed idx hchk0,
        test_seed_hit g' fresh seed idx hchk]
      dsimp only
      rw [hcache]
    | none =>
      have hchk0 : check_existing_arrays g.cache
          (encode_state (seed_to_state seed)) = none := by
        rw [hcache]
        exact hchk
      rw [test_seed_miss g fresh seed hchk0,
        test_seed_miss g' fresh seed hchk]

/-- Witness for C10: the empty cache misses on seed 0, and two states sharing
the empty cache but with different scratch contents report identically. -/
theorem claim_C10_witness :
    ((test_seed_for_cycle ⟨emptyStore (Nat → Nat), fun _ => 0, 0⟩
          (fun _ => 0) 0).2.1 = trace_result (seed_to_state 0) ∧
      1 ≤ (test_seed_for_cycle ⟨emptyStore (Nat → Nat), fun _ => 0, 0⟩
          (fun _ => 0) 0).2.1 ∧
      (test_seed_for_cycle ⟨emptyStore (Nat → Nat), fun _ => 0, 0⟩
          (fun _ => 0) 0).2.2 = false) ∧
      (test_seed_for_cycle ⟨emptyStore (Nat → Nat), fun _ => 0, 0⟩
          (fun _ => 0) 0).2 =
        (test_seed_for_cycle ⟨emptyStore (Nat → Nat), fun _ => 9, 4⟩
          (fun _ => 0) 0).2 :=
  ⟨(claim_C10 ⟨emptyStore (Nat → Nat), fun _ => 0, 0⟩ (fun _ => 0) 0).1
      (by decide),
    (claim_C10 ⟨emptyStore (Nat → Nat), fun _ => 0, 0⟩ (fun _ => 0) 0).2
      ⟨emptyStore (Nat → Nat), fun _ => 9, 4⟩ rfl⟩

/-- C5 counterexample: allocation does not zero-initialize.  Both vectors the
program allocates come from `malloc`, whose contents are arbitrary: in the
model an allocation may carry any word contents, and for the contents
`fun _ => 1` the very first key already tests true, refuting the claim that
`test(k)` is false for every key right after a successful allocation and
before any clear or set. -/
theorem claim_C5_counterexample :
    test_bit (fun _ => 1) 0 = true ∧
      ¬ ∀ (contents : Nat → Nat) (k : Nat), k < POSSIBLE_STATES →
          test_bit contents k = false := by
  refine ⟨by decide, ?_⟩
  intro hall
  exact absurd (hall (fun _ => 1) 0 (by norm_num [POSSIBLE_STATES]))
    (by decide)

/-- C5 as amended: the freshly malloc'ed vector is not zeroed at allocation;
instead the scanner clears the live vector with `memset` immediately before
every trace, so the trace runs over the all-zero vector, in which `test(k)`
is false for every key. -/
theorem claim_C5_amended (g : ScanState) (fresh : Nat → Nat) (seed k : Nat) :
    test_bit zeroed_bit_array k = false ∧
      (check_existing_arrays g.cache (encode_state (seed_to_state seed)) =
          none →
        (test_seed_for_cycle g fresh seed).2.1 =
          trace_result (seed_to_state seed)) := by
  refine ⟨test_bit_zeroed k, ?_⟩
  intro h
  rw [test_seed_miss g fresh seed h]
  rfl

/-- Witness for the amended C5 at the empty cache and seed 0, key 0. -/
theorem claim_C5_amended_witness :
    test_bit zeroed_bit_array 0 = false ∧
      (test_seed_for_cycle ⟨emptyStore (Nat → Nat), fun _ => 3, 0⟩
          (fun _ => 0) 0).2.1 = trace_result (seed_to_state 0) :=
  ⟨(claim_C5_amended ⟨emptyStore (Nat → Nat), fun _ => 3, 0⟩ (fun _ => 0)
      0 0).1,
    (claim_C5_amended ⟨emptyStore (Nat → Nat), fun _ => 3, 0⟩ (fun _ => 0)
      0 0).2 (by decide)⟩

end Sfc8

namespace Sfc8

variable {α : Type}

/-- C4: `check_existing_arrays` scans the retained records in rank order from
rank 0: a hit reports the first rank whose fingerprint contains the key
(every earlier rank misses), not-found happens exactly when no retained
fingerprint contains the key, and on the scanner side a hit on a seed's
encoded initial state makes `test_seed_for_cycle` return the cached length at
the hit rank with `was_on_known_cycle = true` (so `is_new = false`), leaving
the whole global state untouched — no trace is run. -/
theorem claim_C4 (c : CycleStore (Nat → Nat)) (key : Nat) (g : ScanState)
    (fresh : Nat → Nat) (seed idx : Nat) :
    (∀ i, check_existing_arrays c key = some i →
        i < c.saved_array_count ∧
          test_bit_opt (c.tested_cycle_bit_arrays i) key = true ∧
          ∀ j, j < i →
            test_bit_opt (c.tested_cycle_bit_arrays j) key = false) ∧
      (check_existing_arrays c key = none ↔
        ∀ i, i < c.saved_array_count →
          test_bit_opt (c.tested_cycle_bit_arrays i) key = false) ∧
      (check_existing_arrays g.cache (encode_state (seed_to_state seed)) =
          some idx →
        test_seed_for_cycle g fresh seed =
          (g, g.cache.saved_cycle_lengths idx, true)) := by
  refine ⟨?_, ?_, fun h => test_seed_hit g fresh seed idx h⟩
  · intro i h
    obtain ⟨h1, h2, h3, h4⟩ := findHit_some c.saved_array_count 0 c key i h
    exact ⟨by omega, h3, fun j hj => h4 j (by omega) hj⟩
  · unfold check_existing_arrays
    rw [findHit_none_iff c.saved_array_count 0 c key]
    constructor
    · intro hall i hi
      exact hall i (by omega) (by omega)
    · intro hall j _h1 h2
      exact hall j (by omega)

/-- Witness for C4 at `hitStore`, whose rank-0 fingerprint contains the key of
seed 0 (16777216): lookup hits rank 0 and the scanner returns length 42
without modifying anything. -/
theorem claim_C4_witness :
    (0 < hitStore.saved_array_count ∧
      test_bit_opt (hitStore.tested_cycle_bit_arrays 0) 16777216 = true ∧
      ∀ j, j < 0 →
        test_bit_opt (hitStore.tested_cycle_bit_arrays j) 16777216 = false) ∧
      test_seed_for_cycle ⟨hitStore, fun _ => 0, 0⟩ (fun _ => 0) 0 =
        (⟨hitStore, fun _ => 0, 0⟩, hitStore.saved_cycle_lengths 0, true) :=
  ⟨(claim_C4 hitStore 16777216 ⟨hitStore, fun _ => 0, 0⟩ (fun _ => 0) 0 0).1
      0 (by decide),
    (claim_C4 hitStore 16777216 ⟨hitStore, fun _ => 0, 0⟩ (fun _ => 0) 0
      0).2.2 (by decide)⟩

/-- C8: when `update_tested_cycles` returns false the cache is completely
unchanged (all seven lengths, all seven fingerprint slots, and the count);
it returns false exactly when the cache is non-empty and the candidate length
is not strictly larger than any entry of the stored-length table; and on that
path the scanner keeps the very same scratch vector with no new allocation
(the vector is cleared by the unconditional memset before the next trace). -/
theorem claim_C8 (c : CycleStore α) (len : Nat) (arr : α) (g : ScanState)
    (fresh : Nat → Nat) (len' : Nat) (marks : Nat → Nat) :
    ((update_tested_cycles c len arr).2 = false →
        (update_tested_cycles c len arr).1 = c) ∧
      ((update_tested_cycles c len arr).2 = false ↔
        c.saved_array_count ≠ 0 ∧
          ∀ p, p < ARRAYS_TO_STORE → len ≤ c.saved_cycle_lengths p) ∧
      ((update_tested_cycles g.cache len' marks).2 = false →
        consider_phase g fresh len' marks =
          { cache := g.cache, cycle_bit_array := marks,
            allocs := g.allocs }) :=
  ⟨update_frame_of_false c len arr, update_false_iff c len arr,
    consider_phase_of_false g fresh len' marks⟩

/-- Witness for C8: offering length 5 to the full distinct-length cache
(minimum stored length 10) changes nothing, and on the scanner side a
rejected candidate keeps the same scratch vector and allocation count. -/
theorem claim_C8_witness :
    (update_tested_cycles distinctStore 5 99).1 = distinctStore ∧
      (distinctStore.saved_array_count ≠ 0 ∧
        ∀ p, p < ARRAYS_TO_STORE → 5 ≤ distinctStore.saved_cycle_lengths p) ∧
      consider_phase ⟨hitStore, fun _ => 0, 0⟩ (fun _ => 1) 0 (fun _ => 2) =
        { cache := hitStore, cycle_bit_array := fun _ => 2, allocs := 0 } :=
  ⟨(claim_C8 distinctStore 5 99 ⟨hitStore, fun _ => 0, 0⟩ (fun _ => 1) 0
      (fun _ => 2)).1 (by decide),
    (claim_C8 distinctStore 5 99 ⟨hitStore, fun _ => 0, 0⟩ (fun _ => 1) 0
      (fun _ => 2)).2.1.mp (by decide),
    (claim_C8 distinctStore 5 99 ⟨hitStore, fun _ => 0, 0⟩ (fun _ => 1) 0
      (fun _ => 2)).2.2 (by decide)⟩

/-- C6: after any sequence of consider calls starting from the empty cache,
the stored length table is non-increasing in rank order: for ranks i ≤ j
below 7, the length at rank j is at most the length at rank i (in particular
this holds for every pair of retained records). -/
theorem claim_C6 {β : Type} (ops : List (Nat × β)) (i j : Nat) (hij : i ≤ j)
    (hj : j < ARRAYS_TO_STORE) :
    (applyConsiders ops (emptyStore β)).saved_cycle_lengths j ≤
      (applyConsiders ops (emptyStore β)).saved_cycle_lengths i := by
  have hInv : CacheInv (applyConsiders ops (emptyStore β)) := by
    have hstep : ∀ (c : CycleStore β), CacheInv c →
        CacheInv (applyConsiders ops c) := by
      induction ops with
      | nil => exact fun c h => h
      | cons op ops ih =>
        intro c h
        exact ih (update_tested_cycles c op.1 op.2).1 (update_inv c op.1 op.2 h).1
    exact hstep (emptyStore β) emptyStore_inv
  exact hInv.2.2.1 i (by omega) j hj hij

/-- Witness for C6 after the considers (3, a) then (5, b), at ranks 0 and 1. -/
theorem claim_C6_witness :
    (0 ≤ 1 ∧ 1 < ARRAYS_TO_STORE) ∧
      (applyConsiders [(3, (0 : Nat)), (5, 1)]
          (emptyStore Nat)).saved_cycle_lengths 1 ≤
        (applyConsiders [(3, (0 : Nat)), (5, 1)]
          (emptyStore Nat)).saved_cycle_lengths 0 :=
  ⟨⟨by decide, by decide⟩,
    claim_C6 [(3, (0 : Nat)), (5, 1)] 0 1 (by decide) (by decide)⟩

/-- C7: across the modelled seed scan (any initial scratch contents, any
allocation oracle), the cache never holds more than 7 records at any point,
and the maximum length retained in the cache never decreases from one
processed seed to the next. -/
theorem claim_C7 (oracle : Nat → Nat → Nat) (s0 : Nat → Nat) (n : Nat) :
    (scan_state oracle s0 n).cache.saved_array_count ≤ ARRAYS_TO_STORE ∧
      cacheMax (scan_state oracle s0 n).cache ≤
        cacheMax (scan_state oracle s0 (n + 1)).cache :=
  ⟨(scan_state_cache_inv oracle s0 n).1,
    test_seed_cacheMax (scan_state oracle s0 n) (oracle n) n
      (scan_state_cache_inv oracle s0 n)⟩

end Sfc8

namespace Sfc8

variable {α : Type}

/-- C2 as amended: for every cache satisfying the reachable-state invariant
and every consider call with length ≥ 1 that causes an insertion, either an
empty rank is filled — the record count grows by one and every previously
retained record is still retained — or the cache was full (7 records), the
count is unchanged, and the only record possibly removed is the one formerly
at a single rank p; p must be the bottom rank 6 whenever the stored lengths
are pairwise distinct, but when a displaced record's length ties the stored
lengths below its rank, the displaced record itself is dropped (its storage
leaked rather than freed) and p is an interior rank — the claim's two-ending
account fails in exactly that tie case (see the counterexample). -/
theorem claim_C2_amended (c : CycleStore α) (len : Nat) (arr : α)
    (hInv : CacheInvS c) (hlen : 1 ≤ len)
    (hupd : (update_tested_cycles c len arr).2 = true) :
    ((update_tested_cycles c len arr).1.saved_array_count =
        c.saved_array_count + 1 ∧
      ∀ x, retained c x → retained (update_tested_cycles c len arr).1 x) ∨
      (c.saved_array_count = ARRAYS_TO_STORE ∧
        (update_tested_cycles c len arr).1.saved_array_count =
          ARRAYS_TO_STORE ∧
        ∃ p, p < ARRAYS_TO_STORE ∧
          (∀ x, retained c x →
            retained (update_tested_cycles c len arr).1 x ∨
              c.tested_cycle_bit_arrays p = some x) ∧
          ((∀ i j, i < ARRAYS_TO_STORE → j < ARRAYS_TO_STORE → i ≠ j →
              c.saved_cycle_lengths i ≠ c.saved_cycle_lengths j) →
            p = ARRAYS_TO_STORE - 1)) := by
  obtain ⟨⟨h1, h2, h3, h4⟩, hp5⟩ := hInv
  by_cases hc : c.saved_array_count = 0
  · left
    constructor
    · show (update_tested_cycles c len arr).1.saved_array_count = _
      unfold update_tested_cycles
      rw [if_pos hc, hc]
    · intro x hx
      obtain ⟨i, hi7, hxi⟩ := hx
      exfalso
      have := (h2 i hi7).mp (by rw [hxi]; rfl)
      omega
  · have hU : update_tested_cycles c len arr =
        cascade c len arr false 0 ARRAYS_TO_STORE := by
      unfold update_tested_cycles
      rw [if_neg hc]
    rcases Nat.lt_or_ge c.saved_array_count ARRAYS_TO_STORE with hlt | hge
    · left
      have hg := cascade_growth ARRAYS_TO_STORE 0 c len arr false rfl hlt
        (by omega) h2 h4 hp5 hlen
      rw [hU]
      exact ⟨hg.1, hg.2.2.2⟩
    · right
      have hcnt7 : c.saved_array_count = ARRAYS_TO_STORE := by omega
      have hsome : ∀ i, 0 ≤ i → i < ARRAYS_TO_STORE →
          (c.tested_cycle_bit_arrays i).isSome := by
        intro i _ hi7
        exact (h2 i hi7).mpr (by omega)
      have hsort : ∀ i j, 0 ≤ i → i ≤ j → j < ARRAYS_TO_STORE →
          c.saved_cycle_lengths j ≤ c.saved_cycle_lengths i := by
        intro i j _ hij hj7
        exact h3 i (by omega) j hj7 hij
      obtain ⟨hcnt, hcase⟩ := cascade_full ARRAYS_TO_STORE 0 c len arr false
        rfl hsome hsort
      rcases hcase with ⟨heq, _⟩ | ⟨_ht, _hret, p, _hp0, hp7, hmem, hdist⟩
      · exfalso
        rw [hU, heq] at hupd
        simp at hupd
      · rw [hU]
        refine ⟨hcnt7, by rw [hcnt, hcnt7], p, hp7, hmem, ?_⟩
        intro hd
        apply hdist
        intro i j _ _ hi7 hj7 hij
        exact hd i j hi7 hj7 hij

/-- Witness for the amended C2 at the full distinct-length cache: considering
length 65 inserts at rank 1 and cascades to evict the bottom record 6. -/
theorem claim_C2_amended_witness :
    (CacheInvS distinctStore ∧ 1 ≤ 65 ∧
      (update_tested_cycles distinctStore 65 100).2 = true) ∧
      (((update_tested_cycles distinctStore 65 100).1.saved_array_count =
          distinctStore.saved_array_count + 1 ∧
        ∀ x, retained distinctStore x →
          retained (update_tested_cycles distinctStore 65 100).1 x) ∨
        (distinctStore.saved_array_count = ARRAYS_TO_STORE ∧
          (update_tested_cycles distinctStore 65 100).1.saved_array_count =
            ARRAYS_TO_STORE ∧
          ∃ p, p < ARRAYS_TO_STORE ∧
            (∀ x, retained distinctStore x →
              retained (update_tested_cycles distinctStore 65 100).1 x ∨
                distinctStore.tested_cycle_bit_arrays p = some x) ∧
            ((∀ i j, i < ARRAYS_TO_STORE → j < ARRAYS_TO_STORE → i ≠ j →
                distinctStore.saved_cycle_lengths i ≠
                  distinctStore.saved_cycle_lengths j) →
              p = ARRAYS_TO_STORE - 1))) :=
  ⟨⟨by decide, by decide, by decide⟩,
    claim_C2_amended distinctStore 65 100 (by decide) (by decide) (by decide)⟩

/-- C2 counterexample: on the reachable full cache with lengths
(5,3,3,3,3,3,3) and record identifiers 0..6, considering length 4 causes an
insertion at rank 1, whose displaced record (identifier 1, length 3) ties the
length stored at every lower rank and is silently dropped: the count stays 7,
the former bottom-rank record 6 is still retained, yet record 1 — a retained
record other than the former bottom-rank one — has been removed, contradicting
the claim that the cascade can only fill an empty rank or evict the
bottom-rank record. -/
theorem claim_C2_counterexample :
    (update_tested_cycles dropStore 4 100).2 = true ∧
      (update_tested_cycles dropStore 4 100).1.saved_array_count =
        dropStore.saved_array_count ∧
      dropStore.tested_cycle_bit_arrays 1 = some 1 ∧
      dropStore.tested_cycle_bit_arrays (ARRAYS_TO_STORE - 1) = some 6 ∧
      retained (update_tested_cycles dropStore 4 100).1 6 ∧
      ¬ retained (update_tested_cycles dropStore 4 100).1 1 := by
  decide

end Sfc8
